import Mathlib

/-!
Verification of the notebook-rewriting engine in `binder/fix-notebooks.py`.

The script rewrites Jupyter notebooks authored for a custom MDX platform:
a normalizer pass (frontmatter strip, cspell-directive removal, `<Image>`
rewriting, output rewriting) followed by a splitter pass that extracts fenced
python/bash code blocks from markdown cells into separate code cells.

Text is modelled as `List Char` (Python `str` is a sequence of code points).
Each regular expression of the source is embedded as a deterministic scanner
that reproduces the Python `re` semantics on the pattern in question; the
comments on each definition record the pattern being modelled.
-/

namespace FixNb

/-- Text, as a list of characters (Python `str`). -/
abbrev Str := List Char

/-- Python's whitespace set for `str.strip()` / regex `\s` (ASCII range). -/
def isPyWs (c : Char) : Bool :=
  c = ' ' || c = '\t' || c = '\n' || c = '\r' || c = '\x0b' || c = '\x0c'

/-- Regex `\w` (ASCII range): letters, digits, underscore. -/
def isWordChar (c : Char) : Bool := c.isAlphanum || c = '_'

/-- Drop elements satisfying `p` from the end of a list. -/
def dropTrailWhile (p : Char → Bool) (s : Str) : Str :=
  (s.reverse.dropWhile p).reverse

/-- Python `str.strip()` (no argument): strip whitespace from both ends. -/
def pyStrip (s : Str) : Str := dropTrailWhile isPyWs (s.dropWhile isPyWs)

/-- Python `str.strip("\n")`: strip newline characters from both ends. -/
def stripNl (s : Str) : Str :=
  dropTrailWhile (· = '\n') (s.dropWhile (· = '\n'))

/-- Python `str.split("\n")`. -/
def splitNl : Str → List Str
  | [] => [[]]
  | c :: t =>
    if c = '\n' then [] :: splitNl t
    else
      match splitNl t with
      | [] => [[c]]
      | h :: r => (c :: h) :: r

/-- `"\n".flatten l` -/
def joinNl (l : List Str) : Str := (l.intersperse ['\n']).flatten

/-- Python `str.splitlines(keepends=True)` for texts whose only line
terminator is `'\n'` (the only terminator produced by this script). -/
def splitKeepNl : Str → List Str
  | [] => []
  | c :: t =>
    if c = '\n' then ['\n'] :: splitKeepNl t
    else
      match splitKeepNl t with
      | [] => [[c]]
      | h :: r => (c :: h) :: r

/-- `"".flatten l` -/
def joinStr (l : List Str) : Str := l.flatten

/-- Decimal rendering of a natural number (Python f-string `{n}`). -/
def natToStr (n : Nat) : Str := Nat.toDigits 10 n

/-- The slice `s[a:b]` of Python. -/
def seg (s : Str) (a b : Nat) : Str := (s.drop a).take (b - a)

/-! ## FRONTMATTER_RE

`re.compile(r"\A---\n.*?^---\n*", re.DOTALL | re.MULTILINE)`, used as
`FRONTMATTER_RE.sub("", source)`.  The match must start at the beginning of
the string with a literal `---\n`; the lazy `.*?` runs to the earliest
line-start occurrence of `---`, and `\n*` then consumes the maximal run of
newline characters. -/

/-- Offset of the first line-start position of `s` at which `---` appears
(`ls` records whether the current position starts a line). -/
def findDashLine (ls : Bool) : Str → Option Nat
  | [] => none
  | c :: t =>
    if ls && ['-', '-', '-'].isPrefixOf (c :: t) then some 0
    else (findDashLine (c = '\n') t).map (· + 1)

/-- `FRONTMATTER_RE.sub("", s)`. -/
def frontmatterSub (s : Str) : Str :=
  if ['-', '-', '-', '\n'].isPrefixOf s then
    let rest := s.drop 4
    match findDashLine true rest with
    | none => s
    | some p => (rest.drop (p + 3)).dropWhile (· = '\n')
  else s

/-! ## CSPELL_RE

`re.compile(r"^\{/\*.*?\*/\}\s*\n?", re.MULTILINE)`, used as
`CSPELL_RE.sub("", source)`.  A match starts at a line start with `{/*`,
the lazy `.*?` (which cannot cross a newline) runs to the earliest `*/}`,
and `\s*\n?` then consumes the maximal following whitespace run. -/

/-- Length of the lazy `.*?` before the earliest `*/}` on the same line. -/
def findCloseComment : Str → Option Nat
  | [] => none
  | c :: t =>
    if ['*', '/', '}'].isPrefixOf (c :: t) then some 0
    else if c = '\n' then none
    else (findCloseComment t).map (· + 1)

/-- Length of a `CSPELL_RE` match starting at the head of `u` (which the
caller guarantees to be a line start), if any. -/
def cspellAt (u : Str) : Option Nat :=
  if ['{', '/', '*'].isPrefixOf u then
    match findCloseComment (u.drop 3) with
    | none => none
    | some k =>
      let afterIdx := 3 + k + 3
      some (afterIdx + ((u.drop afterIdx).takeWhile isPyWs).length)
  else none

/-- Worker for `CSPELL_RE.sub("", s)`: `skip` counts characters of a match
still to delete, `ls` tells whether the current position is a line start. -/
def cspellGo : Str → Nat → Bool → Str
  | [], _, _ => []
  | c :: t, skip + 1, _ => cspellGo t skip (c = '\n')
  | c :: t, 0, ls =>
    if ls then
      match cspellAt (c :: t) with
      | some (k + 1) => cspellGo t k (c = '\n')
      | _ => c :: cspellGo t 0 (c = '\n')
    else c :: cspellGo t 0 (c = '\n')

/-- `CSPELL_RE.sub("", s)`. -/
def cspellSub (s : Str) : Str := cspellGo s 0 true

/-! ## IMAGE_RE

```
re.compile(r'<Image\s+'
           r'(?:src="(?P<src1>[^"]+)"\s+alt="(?P<alt1>[^"]*)"'
           r'|alt="(?P<alt2>[^"]*)"\s+src="(?P<src2>[^"]+)")'
           r'\s*/?>')
```
-/

/-- If `lit` is a prefix of `u`, the remainder of `u` after it. -/
def expectLit (lit : Str) (u : Str) : Option Str :=
  if lit.isPrefixOf u then some (u.drop lit.length) else none

/-- Parse `[^"]+` followed by a closing quote; returns the captured text and
the remainder after the quote. -/
def quotedPlus (u : Str) : Option (Str × Str) :=
  let cap := u.takeWhile (· ≠ '"')
  if cap.length = 0 then none
  else
    match (u.drop cap.length) with
    | '"' :: r => some (cap, r)
    | _ => none

/-- Parse `[^"]*` followed by a closing quote. -/
def quotedStar (u : Str) : Option (Str × Str) :=
  let cap := u.takeWhile (· ≠ '"')
  match (u.drop cap.length) with
  | '"' :: r => some (cap, r)
  | _ => none

/-- Parse `\s+`: requires at least one whitespace character. -/
def ws1 (u : Str) : Option Str :=
  let w := u.takeWhile isPyWs
  if w.length = 0 then none else some (u.drop w.length)

/-- An `IMAGE_RE` match starting exactly at the head of `u`; returns
`(src, alt, matchLength)`. -/
def imageMatchAt (u : Str) : Option (Str × Str × Nat) :=
  match expectLit ['<', 'I', 'm', 'a', 'g', 'e'] u with
  | none => none
  | some u1 =>
    match ws1 u1 with
    | none => none
    | some u2 =>
      let branch : Option (Str × Str × Str) :=
        match expectLit ['s', 'r', 'c', '=', '"'] u2 with
        | some u3 =>
          match quotedPlus u3 with
          | some (src, u4) =>
            (match ws1 u4 with
             | some u5 =>
               (match expectLit ['a', 'l', 't', '=', '"'] u5 with
                | some u6 =>
                  (match quotedStar u6 with
                   | some (alt, u7) => some (src, alt, u7)
                   | none => none)
                | none => none)
             | none => none)
          | none => none
        | none =>
          match expectLit ['a', 'l', 't', '=', '"'] u2 with
          | some u3 =>
            (match quotedStar u3 with
             | some (alt, u4) =>
               (match ws1 u4 with
                | some u5 =>
                  (match expectLit ['s', 'r', 'c', '=', '"'] u5 with
                   | some u6 =>
                     (match quotedPlus u6 with
                      | some (src, u7) => some (src, alt, u7)
                      | none => none)
                   | none => none)
                | none => none)
             | none => none)
          | none => none
      match branch with
      | none => none
      | some (src, alt, u7) =>
        let u8 := u7.dropWhile isPyWs
        match u8 with
        | '>' :: rest => some (src, alt, u.length - rest.length)
        | '/' :: '>' :: rest => some (src, alt, u.length - rest.length)
        | _ => none

/-- `IMAGE_RE.search(s)`: leftmost match, as `(position, src, alt, length)`. -/
def imageSearchGo (pos : Nat) : Str → Option (Nat × Str × Str × Nat)
  | [] => none
  | c :: t =>
    match imageMatchAt (c :: t) with
    | some (src, alt, len) => some (pos, src, alt, len)
    | none => imageSearchGo (pos + 1) t

/-- `IMAGE_RE.search(s)`. -/
def imageSearch (s : Str) : Option (Nat × Str × Str × Nat) := imageSearchGo 0 s

/-- Generic `re.sub` engine for unanchored patterns: `f` attempts a match at
the head of the suffix and returns the replacement text and the match
length; `skip` counts characters of a previous match still to delete. -/
def subGo (f : Str → Option (Str × Nat)) : Str → Nat → Str
  | [], _ => []
  | _ :: t, skip + 1 => subGo f t skip
  | c :: t, 0 =>
    match f (c :: t) with
    | some (r, len + 1) => r ++ subGo f t len
    | _ => c :: subGo f t 0

/-! ## Path relativization

`_make_relative(abs_path, notebook_dir) = os.path.relpath(abs_path.lstrip("/"), notebook_dir)`.

`os.path.relpath` (POSIX) is modelled for relative arguments that do not
traverse above the current directory: both arguments are normalized to
component lists (resolving `.` and `..`), the common prefix is dropped, and
one `..` is emitted per remaining component of `start`. -/

/-- Split a path on `/`, keeping empty components (they are filtered later,
as in `[x for x in p.split(sep) if x]`). -/
def splitSlash : Str → List Str
  | [] => [[]]
  | c :: t =>
    if c = '/' then [] :: splitSlash t
    else
      match splitSlash t with
      | [] => [[c]]
      | h :: r => (c :: h) :: r

/-- Normalize the component list of an absolute path: drop empty and `.`
components, let `..` pop the last component (`..` at the root vanishes). -/
def normCompsAbs (l : List Str) : List Str :=
  l.foldl
    (fun acc c =>
      if c = [] || c = ['.'] then acc
      else if c = ['.', '.'] then acc.dropLast
      else acc ++ [c])
    []

/-- Length of the common prefix of two component lists
(`genericpath.commonprefix`). -/
def commonPrefixLen : List Str → List Str → Nat
  | a :: as, b :: bs => if a = b then commonPrefixLen as bs + 1 else 0
  | _, _ => 0

/-- `"/".flatten l` -/
def joinSlash (l : List Str) : Str := (l.intersperse ['/']).flatten

/-- `os.path.relpath(path, start)` for relative POSIX arguments. -/
def relpath (path start : Str) : Str :=
  let pl := normCompsAbs (splitSlash path)
  let sl := normCompsAbs (splitSlash start)
  let i := commonPrefixLen sl pl
  let rel := List.replicate (sl.length - i) ['.', '.'] ++ pl.drop i
  if rel = [] then ['.'] else joinSlash rel

/-- `_make_relative`: strip leading `/` characters, then take the relative
path from the notebook's directory. -/
def makeRelative (absPath nbDir : Str) : Str :=
  relpath (absPath.dropWhile (· = '/')) nbDir

/-- Normalize the component list of a relative path (`posixpath.normpath`):
`..` pops a previous real component but is kept when nothing can be
popped. -/
def normCompsRel (l : List Str) : List Str :=
  l.foldl
    (fun acc c =>
      if c = [] || c = ['.'] then acc
      else if c = ['.', '.'] then
        if acc ≠ [] ∧ acc.getLast? ≠ some ['.', '.'] then acc.dropLast
        else acc ++ [c]
      else acc ++ [c])
    []

/-- Join `rel` onto directory `dir` and normalize, as a component string
(used to state the round-trip property of path relativization). -/
def normJoin (dir rel : Str) : Str :=
  joinSlash (normCompsRel (splitSlash (dir ++ ['/'] ++ rel)))

/-! ## Markdown `<Image>` rewriting and absolute markdown image links -/

/-- Replacement `f"![{alt}]({rel})"`. -/
def mdImageRef (alt rel : Str) : Str :=
  ['!', '['] ++ alt ++ [']', '('] ++ rel ++ [')']

/-- `IMAGE_RE.sub(fix_md_image, s)`. -/
def imageSub (nbDir : Str) (s : Str) : Str :=
  subGo (fun u =>
    match imageMatchAt u with
    | some (src, alt, len) => some (mdImageRef alt (makeRelative src nbDir), len)
    | none => none) s 0

/-- A match of `!\[([^\]]*)\]\((/(?:docs|learning)/images/[^)]+)\)` starting
at the head of `u`; returns `(alt, path, matchLength)`. -/
def absImageMatchAt (u : Str) : Option (Str × Str × Nat) :=
  match expectLit ['!', '['] u with
  | none => none
  | some u1 =>
    let alt := u1.takeWhile (· ≠ ']')
    match u1.drop alt.length with
    | ']' :: '(' :: u2 =>
      let pfxLen : Option Nat :=
        if "/docs/images/".toList.isPrefixOf u2 then some 13
        else if "/learning/images/".toList.isPrefixOf u2 then some 17
        else none
      match pfxLen with
      | none => none
      | some n =>
        let path := u2.takeWhile (· ≠ ')')
        if path.length ≤ n then none
        else
          match u2.drop path.length with
          | ')' :: rest => some (alt, path, u.length - rest.length)
          | _ => none
    | _ => none

/-- The absolute-image rewrite
`re.sub(r"!\[([^\]]*)\]\((/(?:docs|learning)/images/[^)]+)\)", ..., s)`. -/
def absImageSub (nbDir : Str) (s : Str) : Str :=
  subGo (fun u =>
    match absImageMatchAt u with
    | some (alt, path, len) =>
      some (mdImageRef alt (makeRelative path nbDir), len)
    | none => none) s 0

/-! ## FENCED_CODE_RE

```
re.compile(r"^(?P<indent>[ ]*)```(?P<lang>\w*)\s*\n"
           r"(?P<body>.*?)"
           r"^(?P=indent)```[ ]*$",
           re.MULTILINE | re.DOTALL)
```

A match opens at a line start with `indent` spaces and three backticks, a
word-character language tag, then whitespace ending at the last newline of
the maximal whitespace run; the lazy body runs to the earliest line start
carrying the same indent, three backticks, and only spaces up to the end of
the line; the match ends before that line's newline. -/

/-- A match of `FENCED_CODE_RE`, with its character span in the scanned
text and its named groups. -/
structure FMatch where
  start : Nat
  len : Nat
  indent : Str
  lang : Str
  body : Str
deriving DecidableEq, Repr

/-- The close-fence test `(?P=indent)```[ ]*$` at the head of `v`: returns
the number of characters it consumes (`$` holds at the end of the text or
before a newline). -/
def closeFenceAt (ind : Str) (v : Str) : Option Nat :=
  match expectLit ind v with
  | none => none
  | some v1 =>
    match expectLit ['`', '`', '`'] v1 with
    | none => none
    | some v2 =>
      let sp := v2.takeWhile (· = ' ')
      if v2.drop sp.length = [] ∨ (v2.drop sp.length).head? = some '\n' then
        some (ind.length + 3 + sp.length)
      else none

/-- Earliest line-start offset in `v` at which the close fence matches;
returns `(bodyLength, closeLength)`. -/
def findCloseFence (ind : Str) (ls : Bool) : Str → Option (Nat × Nat)
  | [] => none
  | c :: t =>
    if ls then
      match closeFenceAt ind (c :: t) with
      | some cl => some (0, cl)
      | none => (findCloseFence ind (c = '\n') t).map (fun r => (r.1 + 1, r.2))
    else (findCloseFence ind (c = '\n') t).map (fun r => (r.1 + 1, r.2))

/-- Index of the last `'\n'` in a list, if any. -/
def lastNlIdx : Str → Option Nat
  | [] => none
  | c :: t =>
    match lastNlIdx t with
    | some j => some (j + 1)
    | none => if c = '\n' then some 0 else none

/-- A `FENCED_CODE_RE` match starting exactly at the head of `u` (a line
start); returns `(indent, lang, body, matchLength)`. -/
def fencedMatchAt (u : Str) : Option (Str × Str × Str × Nat) :=
  let ind := u.takeWhile (· = ' ')
  match expectLit ['`', '`', '`'] (u.drop ind.length) with
  | none => none
  | some u1 =>
    let lang := u1.takeWhile isWordChar
    let u2 := u1.drop lang.length
    let w := u2.takeWhile isPyWs
    match lastNlIdx w with
    | none => none
    | some j =>
      let u3 := u2.drop (j + 1)
      match findCloseFence ind true u3 with
      | none => none
      | some (bl, cl) =>
        some (ind, lang, u3.take bl,
          ind.length + 3 + lang.length + (j + 1) + bl + cl)

/-- `FENCED_CODE_RE.finditer(s)`: scan every line-start position outside a
previous match (`skip` counts characters of the current match still to pass
over; `ls` marks line starts). -/
def fencedGo : Str → Nat → Nat → Bool → List FMatch
  | [], _, _, _ => []
  | c :: t, pos, skip + 1, _ => fencedGo t (pos + 1) skip (c = '\n')
  | c :: t, pos, 0, ls =>
    if ls then
      match fencedMatchAt (c :: t) with
      | some (ind, lang, body, len) =>
        ⟨pos, len, ind, lang, body⟩ ::
          (match len with
           | 0 => fencedGo t (pos + 1) 0 (c = '\n')
           | k + 1 => fencedGo t (pos + 1) k (c = '\n'))
      | none => fencedGo t (pos + 1) 0 (c = '\n')
    else fencedGo t (pos + 1) 0 (c = '\n')

/-- All `FENCED_CODE_RE` matches of `s`, leftmost first, non-overlapping. -/
def fencedFinditer (s : Str) : List FMatch := fencedGo s 0 0 true

/-! ## Container tags and no-extract zones (`_find_no_extract_zones`) -/

/-- `CONTAINER_TAGS = ["Admonition", "Tabs", "OperatingSystemTabs", "details"]` -/
def containerTags : List Str :=
  ["Admonition".toList, "Tabs".toList, "OperatingSystemTabs".toList,
   "details".toList]

/-- Does `rf"<{tag}[\s>]"` match at the head of `u`? -/
def openTagAt (tag : Str) (u : Str) : Bool :=
  match expectLit ('<' :: tag) u with
  | none => false
  | some rest =>
    match rest with
    | [] => false
    | c :: _ => isPyWs c || c = '>'

/-- Does `rf"</{tag}>"` match at the head of `u`? -/
def closeTagAt (tag : Str) (u : Str) : Bool :=
  (('<' :: '/' :: tag) ++ ['>']).isPrefixOf u

/-- Positions (match starts) of all matches of a fixed pattern recognized by
`test` (the tag patterns cannot overlap themselves, so testing each position
equals `finditer`). -/
def scanPositions (test : Str → Bool) : Str → Nat → List Nat
  | [], _ => []
  | c :: t, pos =>
    if test (c :: t) then pos :: scanPositions test t (pos + 1)
    else scanPositions test t (pos + 1)

/-- Worker for `mergeEvents`; the fuel argument only makes the recursion
structural and is always supplied with the total number of events. -/
def mergeEventsGo : Nat → List Nat → List Nat → List (Nat × Bool)
  | _, [], cs => cs.map (fun p => (p, false))
  | _, os, [] => os.map (fun p => (p, true))
  | 0, os, cs => os.map (fun p => (p, true)) ++ cs.map (fun p => (p, false))
  | fuel + 1, o :: os, c :: cs =>
    if o ≤ c then (o, true) :: mergeEventsGo fuel os (c :: cs)
    else (c, false) :: mergeEventsGo fuel (o :: os) cs

/-- Merge open events (`m.start()`) and close events (`m.end()`), sorted by
position with opens first on ties (Python's stable `events.sort`). -/
def mergeEvents (os cs : List Nat) : List (Nat × Bool) :=
  mergeEventsGo (os.length + cs.length) os cs

/-- The per-tag depth counter of `_find_no_extract_zones`: an open at depth
0 records the start; a close returning the depth to 0 emits a zone. -/
def zonesGo : List (Nat × Bool) → Int → Nat → List (Nat × Nat)
  | [], _, _ => []
  | (pos, true) :: rest, d, op =>
    zonesGo rest (d + 1) (if d = 0 then pos else op)
  | (pos, false) :: rest, d, op =>
    if d - 1 = 0 then (op, pos) :: zonesGo rest (d - 1) op
    else zonesGo rest (d - 1) op

/-- Zones contributed by a single container tag. -/
def tagZones (tag : Str) (s : Str) : List (Nat × Nat) :=
  let opens := scanPositions (openTagAt tag) s 0
  let closes := (scanPositions (closeTagAt tag) s 0).map
    (fun p => p + tag.length + 3)
  zonesGo (mergeEvents opens closes) 0 0

/-- Insertion sort on pairs in lexicographic order (Python `zones.sort()`). -/
def insertPair (z : Nat × Nat) : List (Nat × Nat) → List (Nat × Nat)
  | [] => [z]
  | w :: ws =>
    if z.1 < w.1 || (z.1 = w.1 && z.2 ≤ w.2) then z :: w :: ws
    else w :: insertPair z ws

/-- Sort pairs lexicographically. -/
def sortPairs (l : List (Nat × Nat)) : List (Nat × Nat) :=
  l.foldr insertPair []

/-- Coalesce sorted zones that overlap or touch (`start <= merged[-1][1]`). -/
def coalesceGo : (Nat × Nat) → List (Nat × Nat) → List (Nat × Nat)
  | z, [] => [z]
  | z, w :: ws =>
    if w.1 ≤ z.2 then coalesceGo (z.1, max z.2 w.2) ws
    else z :: coalesceGo w ws

/-- Coalesce a sorted zone list. -/
def coalesce : List (Nat × Nat) → List (Nat × Nat)
  | [] => []
  | z :: zs => coalesceGo z zs

/-- `_find_no_extract_zones(source)`. -/
def findNoExtractZones (s : Str) : List (Nat × Nat) :=
  coalesce (sortPairs ((containerTags.map (fun t => tagZones t s)).flatten))

/-- `_in_no_extract_zone(pos, zones)`. -/
def inNoExtractZone (pos : Nat) (zones : List (Nat × Nat)) : Bool :=
  zones.any (fun z => z.1 ≤ pos && pos < z.2)

/-! ## `_strip_indent` (including `textwrap.dedent`) -/

/-- Is the character one of `[ \t]` (the class of `textwrap`'s
whitespace-only and leading-whitespace patterns)? -/
def isIndentChar (c : Char) : Bool := c = ' ' || c = '\t'

/-- Longest common prefix of two character lists. -/
def commonPrefix : Str → Str → Str
  | a :: as, b :: bs => if a = b then a :: commonPrefix as bs else []
  | _, _ => []

/-- `textwrap.dedent(text)`: blank out whitespace-only lines, compute the
longest common `[ \t]` prefix of the remaining nonempty lines, and remove it
from every line that carries it. -/
def dedent (text : Str) : Str :=
  let lines := (splitNl text).map
    (fun l => if l ≠ [] ∧ l.all isIndentChar then [] else l)
  let indents := lines.filterMap
    (fun l => if l = [] then none else some (l.takeWhile isIndentChar))
  let margin := match indents with
    | [] => []
    | i :: is => is.foldl commonPrefix i
  if margin = [] then joinNl lines
  else joinNl (lines.map
    (fun l => if margin.isPrefixOf l then l.drop margin.length else l))

/-- `_strip_indent(body, fence_indent)`. -/
def stripIndent (body ind : Str) : Str :=
  let pre :=
    if ind.length = 0 then body
    else joinNl ((splitNl body).map
      (fun line =>
        if pyStrip line = [] then []
        else if ind.isPrefixOf line then line.drop ind.length
        else line.dropWhile isPyWs))
  let r := stripNl (dedent pre)
  if r = [] then [] else r ++ ['\n']

/-! ## `_add_shell_prefix` -/

/-- `_add_shell_prefix(code)`: prefix `!` to each line whose stripped form
is nonempty and does not start with `#`. -/
def addShellPrefix (code : Str) : Str :=
  joinNl ((splitNl code).map
    (fun line =>
      let s := pyStrip line
      if s.isEmpty || ['#'].isPrefixOf s then line else '!' :: line))

/-! ## Data model: outputs, cells, documents -/

/-- A value of an output's `data` mapping: a plain string or an ordered list
of string fragments. -/
inductive JVal where
  | str : Str → JVal
  | arr : List Str → JVal
deriving DecidableEq, Repr

instance : Inhabited JVal := ⟨JVal.str []⟩

/-- An output attached to a cell: its `data` mapping (MIME type → content),
as an insertion-ordered association list. -/
structure Output where
  data : List (Str × JVal)
deriving DecidableEq, Repr

/-- Dict lookup. -/
def lookupKey (d : List (Str × JVal)) (k : Str) : Option JVal :=
  match d with
  | [] => none
  | (k', v) :: r => if k' = k then some v else lookupKey r k

/-- Dict assignment `d[k] = v`: overwrite in place, else append. -/
def setKey (d : List (Str × JVal)) (k : Str) (v : JVal) : List (Str × JVal) :=
  match d with
  | [] => [(k, v)]
  | (k', v') :: r => if k' = k then (k, v) :: r else (k', v') :: setKey r k v

/-- Dict `d.pop(k, None)`: remove the key if present. -/
def popKey (d : List (Str × JVal)) (k : Str) : List (Str × JVal) :=
  match d with
  | [] => []
  | (k', v') :: r => if k' = k then r else (k', v') :: popKey r k

/-- A notebook cell, with the fields the script reads and writes. -/
structure Cell where
  cellType : Str
  id : Str
  source : List Str
  outputs : List Output
  execCount : Option Int
deriving DecidableEq, Repr

/-- `_make_md_cell(text, cell_id)`. -/
def mkMdCell (text : Str) (cellId : Str) : Cell :=
  let t := stripNl text
  let t := if t.getLast? = some '\n' then t else t ++ ['\n']
  { cellType := "markdown".toList, id := cellId,
    source := splitKeepNl t, outputs := [], execCount := none }

/-- `_make_code_cell(code, cell_id)`. -/
def mkCodeCell (code : Str) (cellId : Str) : Cell :=
  { cellType := "code".toList, id := cellId,
    source := splitKeepNl code, outputs := [], execCount := none }

/-! ## `_split_markdown_cell` -/

/-- `EXTRACT_AS_CODE ∪ EXTRACT_AS_SHELL`, after `lang.lower()`. -/
def isExtractableLang (lang : Str) : Bool :=
  lang = "python".toList || lang = "py".toList || lang = "bash".toList ||
  lang = "shell".toList || lang = "sh".toList

/-- `EXTRACT_AS_SHELL`. -/
def isShellLang (lang : Str) : Bool :=
  lang = "bash".toList || lang = "shell".toList || lang = "sh".toList

/-- Python `str.lower()` (ASCII). -/
def lowerStr (s : Str) : Str := s.map Char.toLower

/-- The split candidates of a markdown source: fenced matches whose
lower-cased language is extractable and whose start offset is outside every
no-extract zone. -/
def extractions (src : Str) : List FMatch :=
  let zones := findNoExtractZones src
  (fencedFinditer src).filter
    (fun m => isExtractableLang (lowerStr m.lang) &&
      !inNoExtractZone m.start zones)

/-- The cell-emission loop of `_split_markdown_cell`: walk the candidates
left to right, keeping the running index `idx` and the end `prevEnd` of the
previous candidate. -/
def splitGo (src : Str) (baseId : Str) : List FMatch → Nat → Nat → List Cell
  | [], idx, prevEnd =>
    let md := seg src prevEnd src.length
    if pyStrip md ≠ [] then
      [mkMdCell md (baseId ++ "-md".toList ++ natToStr idx)]
    else []
  | m :: rest, idx, prevEnd =>
    let mdT := seg src prevEnd m.start
    let mdCells :=
      if pyStrip mdT ≠ [] then
        [mkMdCell mdT (baseId ++ "-md".toList ++ natToStr idx)]
      else []
    let code := stripIndent m.body m.indent
    if pyStrip code = [] then
      mdCells ++ splitGo src baseId rest (idx + 1) (m.start + m.len)
    else
      let code' := if isShellLang (lowerStr m.lang) then addShellPrefix code
        else code
      mdCells ++
        mkCodeCell code' (baseId ++ "-code".toList ++ natToStr idx) ::
          splitGo src baseId rest (idx + 1) (m.start + m.len)

/-- `_split_markdown_cell(cell)`. -/
def splitMarkdownCell (cell : Cell) : List Cell :=
  let src := joinStr cell.source
  let ex := extractions src
  if ex = [] then [cell]
  else splitGo src cell.id ex 0 0

/-! ## `process_notebook`: pass 1 (normalizer) and pass 2 (splitter) -/

/-- The chain of substitutions applied to a markdown cell's text
(frontmatter only for the document's first cell). -/
def normalizeMdText (isFirst : Bool) (nbDir : Str) (s : Str) : Str :=
  let s1 := if isFirst then frontmatterSub s else s
  let s2 := cspellSub s1
  let s3 := imageSub nbDir s2
  absImageSub nbDir s3

/-- `f'<img src="{rel}" alt="{alt}" />'` -/
def imgTag (rel alt : Str) : Str :=
  "<img src=\"".toList ++ rel ++ "\" alt=\"".toList ++ alt ++ "\" />".toList

/-- The joined `text/plain` representation of an output
(`"".join(text_plain) if isinstance(text_plain, list) else text_plain`,
defaulting to the empty string). -/
def plainTextOf (o : Output) : Str :=
  match lookupKey o.data "text/plain".toList with
  | none => []
  | some (.str s) => s
  | some (.arr l) => joinStr l

/-- The output rewrite of pass 1: if `IMAGE_RE` matches the plain-text
representation, install the HTML `<img>` replacement and drop `text/plain`;
returns the new output and whether it changed. -/
def fixOutput (nbDir : Str) (o : Output) : Output × Bool :=
  match imageSearch (plainTextOf o) with
  | none => (o, false)
  | some (_, src, alt, _) =>
    let rel := makeRelative src nbDir
    let d1 := setKey o.data "text/html".toList (.arr [imgTag rel alt])
    ({ data := popKey d1 "text/plain".toList }, true)

/-- The markdown-text part of pass 1 on a single cell (frontmatter, cspell,
image, absolute-image rewrites and the `source != original` test). -/
def pass1CellText (isFirst : Bool) (nbDir : Str) (cell : Cell) : Cell × Bool :=
  if cell.cellType = "markdown".toList then
    let src := joinStr cell.source
    let s' := normalizeMdText isFirst nbDir src
    if s' ≠ src then ({ cell with source := splitKeepNl s' }, true)
    else (cell, false)
  else (cell, false)

/-- Pass 1 on a single cell: the text rewrites, then the output rewrites. -/
def pass1Cell (isFirst : Bool) (nbDir : Str) (cell : Cell) : Cell × Bool :=
  let cb := pass1CellText isFirst nbDir cell
  let fixed := cb.1.outputs.map (fixOutput nbDir)
  ({ cb.1 with outputs := fixed.map Prod.fst },
   cb.2 || fixed.any Prod.snd)

/-- Pass 1 on the cell list (the head cell is the document's first cell). -/
def pass1Go (nbDir : Str) (isFirst : Bool) : List Cell → List Cell × Bool
  | [] => ([], false)
  | c :: cs =>
    let cb := pass1Cell isFirst nbDir c
    let rest := pass1Go nbDir false cs
    (cb.1 :: rest.1, cb.2 || rest.2)

/-- Pass 2 on the cell list: split markdown cells, flag those splitting into
more than one cell. -/
def pass2Go : List Cell → List Cell × Bool
  | [] => ([], false)
  | c :: cs =>
    let rest := pass2Go cs
    if c.cellType = "markdown".toList then
      let r := splitMarkdownCell c
      (r ++ rest.1, decide (r.length > 1) || rest.2)
    else (c :: rest.1, rest.2)

/-- A document: its cell list (remaining notebook metadata is passed through
unchanged by the script and is not modelled). -/
structure Document where
  cells : List Cell
deriving DecidableEq, Repr

/-- `process_notebook`: both passes; returns the transformed document and
the `changed` flag that decides whether the file is rewritten. -/
def processNotebook (nbDir : Str) (doc : Document) : Document × Bool :=
  let p1 := pass1Go nbDir true doc.cells
  let p2 := pass2Go p1.1
  (⟨p2.1⟩, p1.2 || p2.2)

/-! ## Match-presence predicates

Decidable "this pattern occurs" tests, used to state when each normalizer
rule is a no-op. -/

/-- Does `FRONTMATTER_RE` match `s` (opening `---\n` at the very start and
some line-start `---` after it)? -/
def frontmatterFound (s : Str) : Bool :=
  ['-', '-', '-', '\n'].isPrefixOf s && (findDashLine true (s.drop 4)).isSome

/-- Does `CSPELL_RE` match anywhere in the text (scanning with a line-start
flag)? -/
def cspellFoundGo : Str → Bool → Bool
  | [], _ => false
  | c :: t, ls => (ls && (cspellAt (c :: t)).isSome) || cspellFoundGo t (c = '\n')

/-- Does `CSPELL_RE` match anywhere in `s`? -/
def cspellFound (s : Str) : Bool := cspellFoundGo s true

/-- Does `IMAGE_RE` match anywhere in `s`? -/
def imageFound (s : Str) : Bool := (imageSearch s).isSome

/-- Does the absolute-markdown-image pattern match anywhere in `s`? -/
def absImageFound : Str → Bool
  | [] => false
  | c :: t => (absImageMatchAt (c :: t)).isSome || absImageFound t

/-- The matched text `source[m.start():m.end()]` of a fenced match. -/
def matchText (s : Str) (m : FMatch) : Str := seg s m.start (m.start + m.len)

/-- The shell-prefix rule as the specification words it: a line is blank
when it contains only whitespace, and a comment when its first
non-whitespace character is `#`; all other lines receive a `!` prefix. -/
def shellRuleSpec (line : Str) : Str :=
  let t := line.dropWhile isPyWs
  if t = [] then line
  else if t.head? = some '#' then line else '!' :: line

/-! ## Concrete instances used by the claims -/

/-- A markdown cell whose text is the split-ordering example of the
specification. -/
def exSplitCell : Cell :=
  { cellType := "markdown".toList, id := "orig".toList,
    source := ["A\n```python\nprint(1)\n```\nB\n```bash\nls\n```\nC\n".toList],
    outputs := [], execCount := none }

/-- A markdown cell whose only content is a fenced python block with a
whitespace-only body. -/
def exBlankBlockCell : Cell :=
  { cellType := "markdown".toList, id := "z".toList,
    source := ["```python\n\n```\n".toList], outputs := [], execCount := none }

/-- A markdown cell with a blank python block surrounded by text. -/
def exSurroundedBlankCell : Cell :=
  { cellType := "markdown".toList, id := "e".toList,
    source := ["X\n```python\n   \n```\nY\n".toList],
    outputs := [], execCount := none }

/-- A markdown cell containing two extractable python blocks around a fenced
block with the unrecognized language `foo`. -/
def exFooCell : Cell :=
  { cellType := "markdown".toList, id := "q".toList,
    source :=
      ["```python\na\n```\ntext\n```foo\nbar\n```\nmore\n```python\nb\n```\n".toList],
    outputs := [], execCount := none }

/-- A document whose first cell stacks two frontmatter-shaped blocks. -/
def exStackedFmDoc : Document :=
  ⟨[{ cellType := "markdown".toList, id := "a".toList,
      source := ["---\na\n---\n---\nb\n---\nrest\n".toList],
      outputs := [], execCount := none }]⟩

/-- A later (non-first) markdown cell that carries a frontmatter-shaped
block and nothing else the normalizer reacts to. -/
def exLaterFmCell : Cell :=
  { cellType := "markdown".toList, id := "later".toList,
    source := ["---\ntitle: x\n---\nbody\n".toList],
    outputs := [], execCount := none }

/-- An output whose plain text holds two image elements, next to a
pre-existing HTML representation. -/
def exTwoImageOutput : Output :=
  { data :=
      [("text/html".toList, .str "old".toList),
       ("text/plain".toList,
        .arr ["<Image src=\"/docs/images/u.png\"".toList,
              " alt=\"z\" />".toList,
              " and <Image src=\"/docs/images/v.png\" alt=\"w\" />".toList])] }

/-- A plain markdown document that the pipeline leaves alone (used to
instantiate the conditional idempotence statement). -/
def exStableDoc : Document :=
  ⟨[{ cellType := "markdown".toList, id := "s".toList,
      source := ["Just text.\n".toList], outputs := [], execCount := none },
    { cellType := "code".toList, id := "t".toList,
      source := ["print(2)\n".toList],
      outputs := [{ data := [("text/plain".toList, .str "7".toList)] }],
      execCount := some 1 }]⟩

/-! # Theorems -/

/-! ## Generic list facts about the scanners -/

theorem joinStr_splitKeepNl (s : Str) : joinStr (splitKeepNl s) = s := by
  induction s with
  | nil => rfl
  | cons c t ih =>
    by_cases h : c = '\n'
    · subst h
      simp [splitKeepNl, joinStr] at ih ⊢
      exact ih
    · simp only [splitKeepNl, if_neg h]
      cases hs : splitKeepNl t with
      | nil =>
        simp [hs, joinStr] at ih
        simp [joinStr, ih]
      | cons hd tl =>
        simp [hs, joinStr] at ih
        simp [joinStr, ih]

theorem splitNl_ne_nil (s : Str) : splitNl s ≠ [] := by
  cases s with
  | nil => simp [splitNl]
  | cons c t =>
    by_cases h : c = '\n'
    · simp [splitNl, h]
    · simp only [splitNl, if_neg h]
      cases splitNl t <;> simp

theorem joinNl_splitNl (s : Str) : joinNl (splitNl s) = s := by
  induction s with
  | nil => rfl
  | cons c t ih =>
    by_cases h : c = '\n'
    · subst h
      simp only [splitNl, if_pos rfl]
      cases hs : splitNl t with
      | nil => exact absurd hs (splitNl_ne_nil t)
      | cons hd tl =>
        rw [hs] at ih
        simpa [joinNl, List.intersperse] using congrArg (List.cons '\n') ih
    · simp only [splitNl, if_neg h]
      cases hs : splitNl t with
      | nil => exact absurd hs (splitNl_ne_nil t)
      | cons hd tl =>
        rw [hs] at ih
        cases tl with
        | nil => simpa [joinNl, List.intersperse] using congrArg (List.cons c) ih
        | cons x xs => simpa [joinNl, List.intersperse] using congrArg (List.cons c) ih

/-! ## Claim C1 — idempotence of the full pipeline -/

/-- C1, counterexample: on a document whose first cell stacks two
frontmatter-shaped blocks, the first run strips only the outer block, and
the second run of the full pipeline reports `modified = true` and produces
different output, contradicting the claimed idempotence. -/
theorem c1_counterexample_second_run_modifies :
    (processNotebook "docs".toList
      (processNotebook "docs".toList exStackedFmDoc).1).2 = true ∧
    (processNotebook "docs".toList
      (processNotebook "docs".toList exStackedFmDoc).1).1 ≠
      (processNotebook "docs".toList exStackedFmDoc).1 := by
  decide

/-! ## Claim C2 — the splitter's modified flag -/

/-- C2, counterexample: a markdown cell whose only content is a fenced
python block with a whitespace-only body splits into zero cells; the cell
count changes (1 to 0) but neither the splitter pass nor the whole
`process_notebook` reports a modification. -/
theorem c2_counterexample_zero_cell_split_unflagged :
    (pass2Go [exBlankBlockCell]).2 = false ∧
    (pass2Go [exBlankBlockCell]).1.length = 0 ∧
    (processNotebook "docs".toList ⟨[exBlankBlockCell]⟩).2 = false ∧
    (processNotebook "docs".toList ⟨[exBlankBlockCell]⟩).1.cells.length = 0 := by
  decide

/-- C2 (amended): the splitter pass reports a modification if and only if
some markdown cell splits into more than one cell; a split that yields zero
cells or exactly one (replacement) cell does not set the flag. -/
theorem c2_amended_flag_iff_multi_split (cells : List Cell) :
    (pass2Go cells).2 = true ↔
      ∃ c, c ∈ cells ∧ c.cellType = "markdown".toList ∧
        1 < (splitMarkdownCell c).length := by
  induction cells with
  | nil => simp [pass2Go]
  | cons c cs ih =>
    rcases hp : pass2Go cs with ⟨cs', b⟩
    rw [hp] at ih
    by_cases hc : c.cellType = "markdown".toList
    · simp only [pass2Go, hp, hc, if_pos, List.mem_cons]
      constructor
      · intro hb
        rcases Bool.or_eq_true_iff.mp hb with h1 | h1
        · exact ⟨c, Or.inl rfl, hc, of_decide_eq_true h1⟩
        · rcases ih.mp h1 with ⟨x, hx, hmd, hlen⟩
          exact ⟨x, Or.inr hx, hmd, hlen⟩
      · rintro ⟨x, hx | hx, hmd, hlen⟩
        · subst hx
          exact Bool.or_eq_true_iff.mpr (Or.inl (decide_eq_true hlen))
        · exact Bool.or_eq_true_iff.mpr (Or.inr (ih.mpr ⟨x, hx, hmd, hlen⟩))
    · simp only [pass2Go, hp, List.mem_cons]
      rw [if_neg hc]
      constructor
      · intro hb
        rcases ih.mp hb with ⟨x, hx, hmd, hlen⟩
        exact ⟨x, Or.inr hx, hmd, hlen⟩
      · rintro ⟨x, hx | hx, hmd, hlen⟩
        · subst hx; exact absurd hmd hc
        · exact ih.mpr ⟨x, hx, hmd, hlen⟩

/-! ## Claim C5 — the metadata (frontmatter) strip -/

/-- C5, counterexample: in `"---\nt\n----\nrest\n"` no line after the first
consists solely of three hyphens, so the claimed rule is a no-op; the code
nevertheless strips up to the `---` prefix of the `----` line, leaving
`"-\nrest\n"`. -/
theorem c5_counterexample_partial_close_line :
    frontmatterSub "---\nt\n----\nrest\n".toList = "-\nrest\n".toList ∧
    frontmatterSub "---\nt\n----\nrest\n".toList ≠ "---\nt\n----\nrest\n".toList ∧
    ((splitNl "---\nt\n----\nrest\n".toList).tail.all
      (fun l => l ≠ ['-', '-', '-'])) = true := by
  decide

/-! ## Claim C7 — the concrete split-ordering example -/

/-- C7, counterexample: in the five-cell split of the example cell the
markdown cells carry the normalized texts `"A\n"`, `"B\n"`, `"C\n"` — not
`"A"`, `"B"`, `"C"` as the claim states. -/
theorem c7_counterexample_markdown_text_newline :
    (splitMarkdownCell exSplitCell).map (fun c => joinStr c.source) =
      ["A\n".toList, "print(1)\n".toList, "B\n".toList, "!ls\n".toList,
       "C\n".toList] ∧
    "A\n".toList ≠ "A".toList := by
  decide

/-- C7 (amended): the example cell splits into exactly five cells, in
order markdown `"A\n"`, code `"print(1)\n"`, markdown `"B\n"`, code
`"!ls\n"`, markdown `"C\n"`, with the derived identifiers. -/
theorem c7_amended_split_ordering :
    splitMarkdownCell exSplitCell =
      [{ cellType := "markdown".toList, id := "orig-md0".toList,
         source := ["A\n".toList], outputs := [], execCount := none },
       { cellType := "code".toList, id := "orig-code0".toList,
         source := ["print(1)\n".toList], outputs := [], execCount := none },
       { cellType := "markdown".toList, id := "orig-md1".toList,
         source := ["B\n".toList], outputs := [], execCount := none },
       { cellType := "code".toList, id := "orig-code1".toList,
         source := ["!ls\n".toList], outputs := [], execCount := none },
       { cellType := "markdown".toList, id := "orig-md2".toList,
         source := ["C\n".toList], outputs := [], execCount := none }] := by
  decide

/-! ## Claim C9 — the shell prefix -/

/-- C9, counterexample: the line `"  # c"` is not blank and does not start
with `#`, so the claim requires it to be `!`-prefixed; the code strips the
line before testing for `#` and leaves it unprefixed. -/
theorem c9_counterexample_indented_comment :
    addShellPrefix "  # c\nls".toList = "  # c\n!ls".toList ∧
    "  # c".toList.head? ≠ some '#' ∧
    pyStrip "  # c".toList ≠ [] := by
  decide

theorem dropWhile_eq_cons_neg (p : Char → Bool) (l : Str) :
    ∀ c u, l.dropWhile p = c :: u → p c = false := by
  induction l with
  | nil => intro c u h; simp [List.dropWhile] at h
  | cons a t ih =>
    intro c u h
    by_cases hp : p a
    · rw [List.dropWhile_cons_of_pos hp] at h
      exact ih c u h
    · rw [List.dropWhile_cons_of_neg hp] at h
      cases h
      simpa using hp

theorem dropTrailWhile_cons_of_neg (p : Char → Bool) (c : Char) (u : Str)
    (hc : p c = false) :
    dropTrailWhile p (c :: u) = c :: dropTrailWhile p u := by
  unfold dropTrailWhile
  rw [List.reverse_cons, List.dropWhile_append]
  by_cases h : (List.dropWhile p u.reverse).isEmpty
  · rw [if_pos h]
    rw [List.isEmpty_iff] at h
    rw [h]
    simp [List.dropWhile, hc]
  · rw [if_neg h]
    simp

/-- The per-line rule of `_add_shell_prefix` agrees with the rule as the
specification words it. -/
theorem shellRule_pointwise (line : Str) :
    (if (pyStrip line).isEmpty || ['#'].isPrefixOf (pyStrip line) then line
     else '!' :: line) = shellRuleSpec line := by
  unfold shellRuleSpec
  cases hu : line.dropWhile isPyWs with
  | nil =>
    have hps : pyStrip line = [] := by
      unfold pyStrip; rw [hu]; rfl
    simp [hps, hu]
  | cons c u =>
    have hc : isPyWs c = false := dropWhile_eq_cons_neg _ _ _ _ hu
    have hps : pyStrip line = c :: dropTrailWhile isPyWs u := by
      unfold pyStrip; rw [hu]
      exact dropTrailWhile_cons_of_neg _ _ _ hc
    rw [hps]
    by_cases h7 : c = '#'
    · subst h7; simp [List.isPrefixOf]
    · simp only [List.isPrefixOf, h7]
      have h8 : ¬ '#' = c := fun h => h7 h.symm
      simp [List.isPrefixOf, h7, h8]

/-- C9 (amended): `_add_shell_prefix` prefixes `!` to exactly the lines
with a non-whitespace character whose first non-whitespace character is not
`#`, leaving whitespace-only lines and whitespace-indented comment lines
unprefixed; the specification's own example transforms as stated. -/
theorem c9_amended_shell_prefix_rule :
    (∀ code : Str,
      addShellPrefix code = joinNl ((splitNl code).map shellRuleSpec)) ∧
    addShellPrefix "# comment\nls -la\n\nexport X=1\n".toList =
      "# comment\n!ls -la\n\n!export X=1\n".toList := by
  constructor
  · intro code
    unfold addShellPrefix
    simp only [shellRule_pointwise]
  · decide

/-! ## Claim C6 — path relativization -/

/-- C6: for an absolute asset path with a single leading separator the
rewrite strips that separator and computes the standard relative path from
the notebook's directory; on the specification's example the rewritten path
joined back onto the document's directory normalizes to the original
tree path. -/
theorem c6_path_relativization (rest dir : Str) (h : rest.head? ≠ some '/') :
    makeRelative ('/' :: rest) dir = relpath rest dir ∧
    normJoin "docs/a/b".toList
      (makeRelative "/docs/images/x.png".toList "docs/a/b".toList) =
      "docs/images/x.png".toList := by
  refine ⟨?_, by decide⟩
  unfold makeRelative
  congr 1
  rw [List.dropWhile_cons_of_pos (by decide)]
  cases rest with
  | nil => rfl
  | cons c t =>
    have hc : ¬ c = '/' := by
      intro hc; exact h (by rw [hc]; rfl)
    exact List.dropWhile_cons_of_neg (by simpa using hc)

/-- Witness for `c6_path_relativization` at the specification's example. -/
theorem c6_path_relativization_witness :
    "docs/images/x.png".toList.head? ≠ some '/' ∧
    (makeRelative ('/' :: "docs/images/x.png".toList) "docs/a/b".toList =
        relpath "docs/images/x.png".toList "docs/a/b".toList ∧
      normJoin "docs/a/b".toList
        (makeRelative "/docs/images/x.png".toList "docs/a/b".toList) =
        "docs/images/x.png".toList) :=
  ⟨by decide,
   c6_path_relativization "docs/images/x.png".toList "docs/a/b".toList
     (by decide)⟩

/-! ## Dictionary lemmas (for the output rewrite) -/

theorem lookupKey_setKey_self (d : List (Str × JVal)) (k : Str) (v : JVal) :
    lookupKey (setKey d k v) k = some v := by
  induction d with
  | nil => simp [setKey, lookupKey]
  | cons p r ih =>
    rcases p with ⟨k', v'⟩
    by_cases h : k' = k
    · simp [setKey, h, lookupKey]
    · simp [setKey, h, lookupKey, ih]

theorem lookupKey_eq_none_of_not_mem (d : List (Str × JVal)) (k : Str)
    (h : k ∉ d.map Prod.fst) : lookupKey d k = none := by
  induction d with
  | nil => rfl
  | cons p r ih =>
    rcases p with ⟨k1, v1⟩
    simp only [List.map_cons, List.mem_cons] at h
    push_neg at h
    simp only [lookupKey]
    rw [if_neg (fun he : k1 = k => h.1 he.symm)]
    exact ih h.2

theorem lookupKey_setKey_ne (d : List (Str × JVal)) (k k' : Str) (v : JVal)
    (h : k' ≠ k) : lookupKey (setKey d k v) k' = lookupKey d k' := by
  induction d with
  | nil =>
    simp only [setKey, lookupKey]
    rw [if_neg (fun he : k = k' => h he.symm)]
  | cons p r ih =>
    rcases p with ⟨k1, v1⟩
    simp only [setKey, lookupKey]
    by_cases h1 : k1 = k
    · rw [if_pos h1]
      simp only [lookupKey]
      rw [if_neg (fun he : k = k' => h he.symm),
        if_neg (fun he : k1 = k' => h (h1 ▸ he).symm)]
    · rw [if_neg h1]
      simp only [lookupKey]
      by_cases h2 : k1 = k'
      · rw [if_pos h2, if_pos h2]
      · rw [if_neg h2, if_neg h2, ih]

theorem lookupKey_popKey_ne (d : List (Str × JVal)) (k k' : Str)
    (h : k' ≠ k) : lookupKey (popKey d k) k' = lookupKey d k' := by
  induction d with
  | nil => rfl
  | cons p r ih =>
    rcases p with ⟨k1, v1⟩
    simp only [popKey, lookupKey]
    by_cases h1 : k1 = k
    · rw [if_pos h1, if_neg (fun h2 : k1 = k' => h (h1 ▸ h2).symm)]
    · rw [if_neg h1]
      simp only [lookupKey]
      by_cases h2 : k1 = k'
      · rw [if_pos h2, if_pos h2]
      · rw [if_neg h2, if_neg h2, ih]

theorem mem_setKey_keys (d : List (Str × JVal)) (k : Str) (v : JVal) :
    ∀ x ∈ (setKey d k v).map Prod.fst, x = k ∨ x ∈ d.map Prod.fst := by
  induction d with
  | nil =>
    intro x hx
    simp only [setKey, List.map_cons, List.map_nil, List.mem_singleton] at hx
    exact Or.inl hx
  | cons p r ih =>
    rcases p with ⟨k1, v1⟩
    intro x hx
    by_cases h1 : k1 = k
    · rw [show setKey ((k1, v1) :: r) k v = (k, v) :: r from by
        simp [setKey, h1]] at hx
      simp only [List.map_cons, List.mem_cons] at hx
      rcases hx with rfl | hx
      · exact Or.inl rfl
      · exact Or.inr (by simp [List.mem_cons, hx])
    · rw [show setKey ((k1, v1) :: r) k v = (k1, v1) :: setKey r k v from by
        simp [setKey, h1]] at hx
      simp only [List.map_cons, List.mem_cons] at hx
      rcases hx with rfl | hx
      · exact Or.inr (by simp)
      · rcases ih x hx with rfl | hx2
        · exact Or.inl rfl
        · exact Or.inr (by simp [List.mem_cons, hx2])

theorem setKey_keys_nodup (d : List (Str × JVal)) (k : Str) (v : JVal)
    (hnd : (d.map Prod.fst).Nodup) :
    ((setKey d k v).map Prod.fst).Nodup := by
  induction d with
  | nil => simp [setKey]
  | cons p r ih =>
    rcases p with ⟨k1, v1⟩
    simp only [List.map_cons, List.nodup_cons] at hnd
    by_cases h1 : k1 = k
    · rw [show setKey ((k1, v1) :: r) k v = (k, v) :: r from by
        simp [setKey, h1]]
      simp only [List.map_cons, List.nodup_cons]
      exact ⟨h1 ▸ hnd.1, hnd.2⟩
    · rw [show setKey ((k1, v1) :: r) k v = (k1, v1) :: setKey r k v from by
        simp [setKey, h1]]
      simp only [List.map_cons, List.nodup_cons]
      refine ⟨?_, ih hnd.2⟩
      intro hmem
      rcases mem_setKey_keys r k v k1 hmem with rfl | h2
      · exact h1 rfl
      · exact hnd.1 h2

theorem lookupKey_popKey_self_of_nodup (d : List (Str × JVal)) (k : Str)
    (hnd : (d.map Prod.fst).Nodup) : lookupKey (popKey d k) k = none := by
  induction d with
  | nil => rfl
  | cons p r ih =>
    rcases p with ⟨k1, v1⟩
    simp only [List.map_cons, List.nodup_cons] at hnd
    simp only [popKey]
    by_cases h1 : k1 = k
    · rw [if_pos h1]
      exact lookupKey_eq_none_of_not_mem r k (h1 ▸ hnd.1)
    · rw [if_neg h1]
      simp only [lookupKey]
      rw [if_neg h1]
      exact ih hnd.2

/-! ## Leftmost-match property of `IMAGE_RE.search` -/

theorem imageSearchGo_leftmost (s : Str) :
    ∀ pos p src alt len, imageSearchGo pos s = some (p, src, alt, len) →
      ∀ q, pos ≤ q → q < p → imageMatchAt (s.drop (q - pos)) = none := by
  induction s with
  | nil =>
    intro pos p src alt len h
    simp [imageSearchGo] at h
  | cons c t ih =>
    intro pos p src alt len h q hq1 hq2
    cases hm : imageMatchAt (c :: t) with
    | some r =>
      rw [imageSearchGo, hm] at h
      cases h
      omega
    | none =>
      rw [imageSearchGo, hm] at h
      rcases Nat.eq_or_lt_of_le hq1 with rfl | hlt
      · simpa using hm
      · have hd : q - pos = (q - (pos + 1)) + 1 := by omega
        rw [hd, List.drop_succ_cons]
        exact ih (pos + 1) p src alt len h q hlt hq2

/-! ## Claim C3 — the output-rewrite invariant -/

/-- C3: whenever `IMAGE_RE` matches an output's plain-text representation,
the rewritten output has no `text/plain` key and carries a `text/html`
representation consisting of the single self-closing `<img>` element with
the relativized `src` and the extracted `alt`; in particular the output
never ends pass 1 with both the stale plain text and the HTML
replacement. -/
theorem c3_no_stale_plain_with_html (nbDir : Str) (o : Output)
    (hnd : (o.data.map Prod.fst).Nodup)
    (p : Nat) (src alt : Str) (len : Nat)
    (h : imageSearch (plainTextOf o) = some (p, src, alt, len)) :
    lookupKey ((fixOutput nbDir o).1).data "text/plain".toList = none ∧
    lookupKey ((fixOutput nbDir o).1).data "text/html".toList =
      some (.arr [imgTag (makeRelative src nbDir) alt]) ∧
    (fixOutput nbDir o).2 = true := by
  unfold fixOutput
  rw [h]
  refine ⟨?_, ?_, rfl⟩
  · exact lookupKey_popKey_self_of_nodup _ _ (setKey_keys_nodup _ _ _ hnd)
  · rw [lookupKey_popKey_ne _ _ _ (by decide)]
    exact lookupKey_setKey_self _ _ _

/-- Witness for `c3_no_stale_plain_with_html` on a concrete output. -/
theorem c3_no_stale_plain_with_html_witness :
    ((exTwoImageOutput.data.map Prod.fst).Nodup ∧
      imageSearch (plainTextOf exTwoImageOutput) =
        some (0, "/docs/images/u.png".toList, "z".toList, 42)) ∧
    lookupKey ((fixOutput "docs/a".toList exTwoImageOutput).1).data
      "text/plain".toList = none :=
  ⟨⟨by decide, by decide⟩,
   (c3_no_stale_plain_with_html "docs/a".toList exTwoImageOutput (by decide)
      0 "/docs/images/u.png".toList "z".toList 42 (by decide)).1⟩

/-! ## Claim C10 — the first occurrence drives the output rewrite -/

/-- C10: when the plain-text representation matches, the rewrite is driven
by the leftmost occurrence only (no match exists at any earlier position):
the installed `text/html` value is the one-element list built from that
match's `src` and `alt` (overwriting any pre-existing `text/html`), the
whole `text/plain` entry is discarded, and every other key keeps its
value. -/
theorem c10_first_match_drives_rewrite (nbDir : Str) (o : Output)
    (hnd : (o.data.map Prod.fst).Nodup)
    (p : Nat) (src alt : Str) (len : Nat)
    (h : imageSearch (plainTextOf o) = some (p, src, alt, len)) :
    (∀ q, q < p → imageMatchAt ((plainTextOf o).drop q) = none) ∧
    lookupKey ((fixOutput nbDir o).1).data "text/html".toList =
      some (.arr [imgTag (makeRelative src nbDir) alt]) ∧
    lookupKey ((fixOutput nbDir o).1).data "text/plain".toList = none ∧
    (∀ k, k ≠ "text/plain".toList → k ≠ "text/html".toList →
      lookupKey ((fixOutput nbDir o).1).data k = lookupKey o.data k) := by
  refine ⟨?_, ?_, ?_, ?_⟩
  · intro q hq
    have := imageSearchGo_leftmost (plainTextOf o) 0 p src alt len h q
      (Nat.zero_le q) hq
    simpa using this
  · unfold fixOutput
    rw [h]
    rw [lookupKey_popKey_ne _ _ _ (by decide)]
    exact lookupKey_setKey_self _ _ _
  · unfold fixOutput
    rw [h]
    exact lookupKey_popKey_self_of_nodup _ _ (setKey_keys_nodup _ _ _ hnd)
  · intro k hk1 hk2
    unfold fixOutput
    rw [h]
    rw [lookupKey_popKey_ne _ _ _ hk1]
    exact lookupKey_setKey_ne _ _ _ _ hk2

/-- Witness for `c10_first_match_drives_rewrite` on an output with two
image elements and a pre-existing HTML representation. -/
theorem c10_first_match_drives_rewrite_witness :
    ((exTwoImageOutput.data.map Prod.fst).Nodup ∧
      imageSearch (plainTextOf exTwoImageOutput) =
        some (0, "/docs/images/u.png".toList, "z".toList, 42)) ∧
    lookupKey ((fixOutput "docs/a".toList exTwoImageOutput).1).data
      "text/html".toList =
      some (.arr [imgTag (makeRelative "/docs/images/u.png".toList
        "docs/a".toList) "z".toList]) :=
  ⟨⟨by decide, by decide⟩,
   (c10_first_match_drives_rewrite "docs/a".toList exTwoImageOutput
      (by decide) 0 "/docs/images/u.png".toList "z".toList 42
      (by decide)).2.1⟩

/-! ## No-match no-op lemmas for the normalizer rules -/

theorem frontmatterSub_id (s : Str) (h : frontmatterFound s = false) :
    frontmatterSub s = s := by
  unfold frontmatterFound at h
  unfold frontmatterSub
  by_cases hp : (['-', '-', '-', '\n'].isPrefixOf s) = true
  · rw [hp, Bool.true_and] at h
    rw [if_pos hp]
    cases hd : findDashLine true (s.drop 4) with
    | none => simp only [hd]
    | some p => rw [hd] at h; simp at h
  · rw [if_neg hp]

theorem cspellGo_id (s : Str) :
    ∀ ls, cspellFoundGo s ls = false → cspellGo s 0 ls = s := by
  induction s with
  | nil => intro ls _; rfl
  | cons c t ih =>
    intro ls h
    simp only [cspellFoundGo, Bool.or_eq_false_iff] at h
    obtain ⟨h1, h2⟩ := h
    cases ls with
    | false =>
      show c :: cspellGo t 0 (c = '\n') = c :: t
      exact congrArg (c :: ·) (ih _ h2)
    | true =>
      rw [Bool.true_and] at h1
      have hnone : cspellAt (c :: t) = none := by
        cases hca : cspellAt (c :: t) with
        | none => rfl
        | some k => rw [hca] at h1; simp at h1
      show (match cspellAt (c :: t) with
        | some (k + 1) => cspellGo t k (c = '\n')
        | _ => c :: cspellGo t 0 (c = '\n')) = c :: t
      rw [hnone]
      exact congrArg (c :: ·) (ih _ h2)

theorem subGo_id (f : Str → Option (Str × Nat)) :
    ∀ s : Str, (∀ c (u : Str), (c :: u) <:+ s → f (c :: u) = none) →
      subGo f s 0 = s := by
  intro s
  induction s with
  | nil => intro _; rfl
  | cons c t ih =>
    intro h
    have hc : f (c :: t) = none := h c t (List.suffix_refl _)
    show (match f (c :: t) with
      | some (r, len + 1) => r ++ subGo f t len
      | _ => c :: subGo f t 0) = c :: t
    rw [hc]
    exact congrArg (c :: ·)
      (ih fun c' u hu => h c' u (hu.trans (List.suffix_cons c t)))

theorem imageSearchGo_none (s : Str) : ∀ pos, imageSearchGo pos s = none →
    ∀ c (u : Str), (c :: u) <:+ s → imageMatchAt (c :: u) = none := by
  induction s with
  | nil =>
    intro pos _ c u hsuf
    exact absurd (List.eq_nil_of_suffix_nil hsuf) (by simp)
  | cons a t ih =>
    intro pos h c u hsuf
    cases hm : imageMatchAt (a :: t) with
    | some r =>
      rw [imageSearchGo, hm] at h
      exact absurd h (by simp)
    | none =>
      rw [imageSearchGo, hm] at h
      rcases List.suffix_cons_iff.mp hsuf with heq | hsuf'
      · rw [heq]; exact hm
      · exact ih (pos + 1) h c u hsuf'

theorem imageSub_id (nbDir : Str) (s : Str) (h : imageFound s = false) :
    imageSub nbDir s = s := by
  unfold imageFound imageSearch at h
  have hnone : imageSearchGo 0 s = none := by
    cases hq : imageSearchGo 0 s with
    | none => rfl
    | some r => rw [hq] at h; simp at h
  apply subGo_id
  intro c u hsuf
  rw [imageSearchGo_none s 0 hnone c u hsuf]

theorem absImageFound_none (s : Str) (h : absImageFound s = false) :
    ∀ c (u : Str), (c :: u) <:+ s → absImageMatchAt (c :: u) = none := by
  induction s with
  | nil =>
    intro c u hsuf
    exact absurd (List.eq_nil_of_suffix_nil hsuf) (by simp)
  | cons a t ih =>
    intro c u hsuf
    simp only [absImageFound, Bool.or_eq_false_iff] at h
    rcases List.suffix_cons_iff.mp hsuf with heq | hsuf'
    · rw [heq]
      cases hm : absImageMatchAt (a :: t) with
      | none => rfl
      | some r => rw [hm] at h; simp at h
    · exact ih h.2 c u hsuf'

theorem absImageSub_id (nbDir : Str) (s : Str) (h : absImageFound s = false) :
    absImageSub nbDir s = s := by
  apply subGo_id
  intro c u hsuf
  rw [absImageFound_none s h c u hsuf]

theorem normalizeMdText_id (isFirst : Bool) (nbDir : Str) (s : Str)
    (hfm : isFirst = true → frontmatterFound s = false)
    (hcs : cspellFound s = false)
    (him : imageFound s = false) (hab : absImageFound s = false) :
    normalizeMdText isFirst nbDir s = s := by
  have h1 : (if isFirst then frontmatterSub s else s) = s := by
    cases isFirst with
    | false => rfl
    | true => exact frontmatterSub_id s (hfm rfl)
  have h2 : cspellSub s = s := cspellGo_id s true hcs
  show absImageSub nbDir (imageSub nbDir (cspellSub
    (if isFirst then frontmatterSub s else s))) = s
  rw [h1, h2, imageSub_id nbDir s him, absImageSub_id nbDir s hab]

theorem fixOutput_id (nbDir : Str) (o : Output)
    (h : imageSearch (plainTextOf o) = none) :
    fixOutput nbDir o = (o, false) := by
  unfold fixOutput
  rw [h]

theorem pass1Cell_id (isFirst : Bool) (nbDir : Str) (cell : Cell)
    (hfm : cell.cellType = "markdown".toList → isFirst = true →
      frontmatterFound (joinStr cell.source) = false)
    (hmd : cell.cellType = "markdown".toList →
      cspellFound (joinStr cell.source) = false ∧
      imageFound (joinStr cell.source) = false ∧
      absImageFound (joinStr cell.source) = false)
    (hout : ∀ o ∈ cell.outputs, imageSearch (plainTextOf o) = none) :
    pass1Cell isFirst nbDir cell = (cell, false) := by
  have htext : pass1CellText isFirst nbDir cell = (cell, false) := by
    unfold pass1CellText
    by_cases hc : cell.cellType = "markdown".toList
    · obtain ⟨h2, h3, h4⟩ := hmd hc
      rw [if_pos hc]
      show (if normalizeMdText isFirst nbDir (joinStr cell.source) ≠
          joinStr cell.source then _ else (cell, false)) = (cell, false)
      rw [normalizeMdText_id isFirst nbDir _ (hfm hc) h2 h3 h4]
      simp
    · rw [if_neg hc]
  have houts : cell.outputs.map (fixOutput nbDir) =
      cell.outputs.map (fun o => (o, false)) := by
    apply List.map_congr_left
    intro o ho
    exact fixOutput_id nbDir o (hout o ho)
  unfold pass1Cell
  rw [htext]
  simp only [houts, List.map_map]
  have hid : (Prod.fst ∘ fun (o : Output) => (o, false)) = fun o => o := rfl
  have hsnd : (Prod.snd ∘ fun (o : Output) => (o, false)) =
    fun _ => false := rfl
  have hany : ∀ l : List Output,
      (List.map (fun o => (o, false)) l).any Prod.snd = false := by
    intro l
    induction l with
    | nil => rfl
    | cons o os iha => simp [iha]
  rw [hid, hany]
  simp

theorem pass1Go_id (nbDir : Str) (cells : List Cell) :
    ∀ isFirst,
      (∀ c ∈ cells, c.cellType = "markdown".toList →
        frontmatterFound (joinStr c.source) = false ∧
        cspellFound (joinStr c.source) = false ∧
        imageFound (joinStr c.source) = false ∧
        absImageFound (joinStr c.source) = false) →
      (∀ c ∈ cells, ∀ o ∈ c.outputs, imageSearch (plainTextOf o) = none) →
      pass1Go nbDir isFirst cells = (cells, false) := by
  induction cells with
  | nil => intro _ _ _; rfl
  | cons c cs ih =>
    intro isFirst hmd hout
    show ((pass1Cell isFirst nbDir c).1 :: (pass1Go nbDir false cs).1,
      (pass1Cell isFirst nbDir c).2 || (pass1Go nbDir false cs).2) =
      (c :: cs, false)
    rw [pass1Cell_id isFirst nbDir c (fun hc _ => (hmd c (by simp) hc).1)
      (fun hc => (hmd c (by simp) hc).2) (hout c (by simp))]
    rw [ih false (fun x hx => hmd x (by simp [hx]))
      (fun x hx => hout x (by simp [hx]))]
    rfl

theorem pass2Go_id (cells : List Cell)
    (h : ∀ c ∈ cells, c.cellType = "markdown".toList →
      extractions (joinStr c.source) = []) :
    pass2Go cells = (cells, false) := by
  induction cells with
  | nil => rfl
  | cons c cs ih =>
    have hcs : pass2Go cs = (cs, false) :=
      ih (fun x hx => h x (by simp [hx]))
    show (if c.cellType = "markdown".toList then
        (splitMarkdownCell c ++ (pass2Go cs).1,
          decide ((splitMarkdownCell c).length > 1) || (pass2Go cs).2)
      else (c :: (pass2Go cs).1, (pass2Go cs).2)) = (c :: cs, false)
    rw [hcs]
    by_cases hc : c.cellType = "markdown".toList
    · have hsplit : splitMarkdownCell c = [c] := by
        show (if extractions (joinStr c.source) = [] then [c]
          else splitGo (joinStr c.source) c.id
            (extractions (joinStr c.source)) 0 0) = [c]
        rw [h c (by simp) hc]
        simp
      simp only [if_pos hc, hsplit]
      rfl
    · simp only [if_neg hc]

/-- C1 (amended): the pipeline is idempotent from any state that offers it
nothing to do — if a document (such as the output of a first run that left
no residual patterns) has no frontmatter, cspell, image or absolute-image
matches in its markdown cells, no image matches in its outputs, and no
split candidates, then a run reports `modified = false` and returns the
document unchanged, so the written bytes are those of the previous run. -/
theorem c1_amended_idempotent_when_no_matches (nbDir : Str) (d : Document)
    (hmd : ∀ c ∈ d.cells, c.cellType = "markdown".toList →
      frontmatterFound (joinStr c.source) = false ∧
      cspellFound (joinStr c.source) = false ∧
      imageFound (joinStr c.source) = false ∧
      absImageFound (joinStr c.source) = false)
    (hout : ∀ c ∈ d.cells, ∀ o ∈ c.outputs,
      imageSearch (plainTextOf o) = none)
    (hsplit : ∀ c ∈ d.cells, c.cellType = "markdown".toList →
      extractions (joinStr c.source) = []) :
    processNotebook nbDir d = (d, false) := by
  unfold processNotebook
  rw [pass1Go_id nbDir d.cells true hmd hout]
  show (Document.mk (pass2Go d.cells).1,
    false || (pass2Go d.cells).2) = (d, false)
  rw [pass2Go_id d.cells hsplit]
  rfl

/-- Witness for `c1_amended_idempotent_when_no_matches`: the output of a
first run on a concrete document satisfies the no-residual-match conditions
and is a fixed point reported unmodified. -/
theorem c1_amended_idempotent_witness :
    ((∀ c ∈ (processNotebook "docs".toList exStableDoc).1.cells,
        c.cellType = "markdown".toList →
        frontmatterFound (joinStr c.source) = false ∧
        cspellFound (joinStr c.source) = false ∧
        imageFound (joinStr c.source) = false ∧
        absImageFound (joinStr c.source) = false) ∧
      (∀ c ∈ (processNotebook "docs".toList exStableDoc).1.cells,
        ∀ o ∈ c.outputs, imageSearch (plainTextOf o) = none) ∧
      (∀ c ∈ (processNotebook "docs".toList exStableDoc).1.cells,
        c.cellType = "markdown".toList →
        extractions (joinStr c.source) = [])) ∧
    processNotebook "docs".toList (processNotebook "docs".toList exStableDoc).1 =
      ((processNotebook "docs".toList exStableDoc).1, false) :=
  ⟨⟨by decide, by decide, by decide⟩,
   c1_amended_idempotent_when_no_matches "docs".toList
     (processNotebook "docs".toList exStableDoc).1
     (by decide) (by decide) (by decide)⟩

/-! ## Claim C5 — amended frontmatter-strip characterization -/

theorem drop_append_plus {α : Type} (a x : List α) (n : Nat) :
    (a ++ x).drop (a.length + n) = x.drop n := by
  induction a with
  | nil => simp
  | cons c t ih => simp [Nat.succ_add, ih]

/-- C5 (amended): the strip is a no-op when the text does not open with a
`---` line or when no later line starts with `---`; when the text is
`"---\n" ++ a ++ "---" ++ b` and the first line-start occurrence of `---`
after the opening is the one at the `a`/`b` boundary, the strip removes
everything through that occurrence plus the following newline run, keeping
the rest of `b`; and pass 1 leaves the text of a non-first cell untouched
even when it carries a frontmatter-shaped block. -/
theorem c5_amended_frontmatter_strip (s s' a b : Str) (nbDir : Str)
    (cell : Cell)
    (hnofm : (['-', '-', '-', '\n'].isPrefixOf s) = false)
    (hs' : (['-', '-', '-', '\n'].isPrefixOf s') = true)
    (hnoclose : findDashLine true (s'.drop 4) = none)
    (hclose : findDashLine true (a ++ (['-', '-', '-'] ++ b)) =
      some a.length)
    (hcsp : cspellFound (joinStr cell.source) = false)
    (himg : imageFound (joinStr cell.source) = false)
    (habs : absImageFound (joinStr cell.source) = false)
    (hout : cell.outputs = []) :
    frontmatterSub s = s ∧
    frontmatterSub s' = s' ∧
    frontmatterSub (['-', '-', '-', '\n'] ++ (a ++ (['-', '-', '-'] ++ b)))
      = b.dropWhile (· = '\n') ∧
    pass1Cell false nbDir cell = (cell, false) := by
  refine ⟨?_, ?_, ?_, ?_⟩
  · unfold frontmatterSub
    rw [if_neg (by rw [hnofm]; simp)]
  · unfold frontmatterSub
    rw [if_pos hs']
    simp only [hnoclose]
  · unfold frontmatterSub
    rw [if_pos (by
      have : (['-', '-', '-', '\n'] : Str) <+:
          ['-', '-', '-', '\n'] ++ (a ++ (['-', '-', '-'] ++ b)) :=
        List.prefix_append _ _
      exact List.isPrefixOf_iff_prefix.mpr this)]
    show (match findDashLine true (a ++ (['-', '-', '-'] ++ b)) with
      | none => ['-', '-', '-', '\n'] ++ (a ++ (['-', '-', '-'] ++ b))
      | some p => ((a ++ (['-', '-', '-'] ++ b)).drop (p + 3)).dropWhile
          (fun x => decide (x = '\n'))) =
      b.dropWhile (fun x => decide (x = '\n'))
    rw [hclose]
    show ((a ++ (['-', '-', '-'] ++ b)).drop (a.length + 3)).dropWhile
        (fun x => decide (x = '\n')) =
      b.dropWhile (fun x => decide (x = '\n'))
    rw [drop_append_plus]
    rfl
  · exact pass1Cell_id false nbDir cell
      (fun _ h => by simp at h)
      (fun _ => ⟨hcsp, himg, habs⟩)
      (by rw [hout]; intro o ho; simp at ho)

/-- Witness for `c5_amended_frontmatter_strip` at concrete texts and a
concrete later cell carrying a frontmatter-shaped block. -/
theorem c5_amended_frontmatter_strip_witness :
    ((['-', '-', '-', '\n'].isPrefixOf "plain\n".toList) = false ∧
      (['-', '-', '-', '\n'].isPrefixOf "---\nabc".toList) = true ∧
      findDashLine true ("---\nabc".toList.drop 4) = none ∧
      findDashLine true ("t\n".toList ++ (['-', '-', '-'] ++
        "\nrest\n".toList)) = some "t\n".toList.length ∧
      cspellFound (joinStr exLaterFmCell.source) = false ∧
      imageFound (joinStr exLaterFmCell.source) = false ∧
      absImageFound (joinStr exLaterFmCell.source) = false ∧
      exLaterFmCell.outputs = []) ∧
    (frontmatterSub "plain\n".toList = "plain\n".toList ∧
      frontmatterSub "---\nabc".toList = "---\nabc".toList ∧
      frontmatterSub (['-', '-', '-', '\n'] ++ ("t\n".toList ++
        (['-', '-', '-'] ++ "\nrest\n".toList))) =
        "\nrest\n".toList.dropWhile (· = '\n') ∧
      pass1Cell false "docs".toList exLaterFmCell = (exLaterFmCell, false)) :=
  ⟨⟨by decide, by decide, by decide, by decide, by decide, by decide,
    by decide, by decide⟩,
   c5_amended_frontmatter_strip "plain\n".toList "---\nabc".toList
     "t\n".toList "\nrest\n".toList "docs".toList exLaterFmCell
     (by decide) (by decide) (by decide) (by decide) (by decide)
     (by decide) (by decide) (by decide)⟩

/-! ## Claim C8 — helper lemmas on blank detection -/

theorem pyStrip_eq_nil_mem (l : Str) :
    pyStrip l = [] → ∀ c ∈ l, isPyWs c = true := by
  induction l with
  | nil => simp
  | cons a t ih =>
    intro h c hc
    by_cases ha : isPyWs a
    · have heq : pyStrip (a :: t) = pyStrip t := by
        unfold pyStrip
        rw [List.dropWhile_cons_of_pos ha]
      rcases List.mem_cons.mp hc with rfl | hct
      · exact ha
      · exact ih (heq ▸ h) c hct
    · unfold pyStrip at h
      rw [List.dropWhile_cons_of_neg ha,
        dropTrailWhile_cons_of_neg _ _ _ (by simpa using ha)] at h
      simp at h

theorem joinNl_cons_cons (l1 l2 : Str) (ls : List Str) :
    joinNl (l1 :: l2 :: ls) = l1 ++ '\n' :: joinNl (l2 :: ls) := by
  simp [joinNl, List.intersperse]

theorem mem_joinNl_of_mem (ls : List Str) (l : Str) (c : Char)
    (hl : l ∈ ls) (hc : c ∈ l) : c ∈ joinNl ls := by
  induction ls with
  | nil => simp at hl
  | cons x xs ih =>
    cases xs with
    | nil =>
      rcases List.mem_cons.mp hl with rfl | h
      · simpa [joinNl] using hc
      · simp at h
    | cons y ys =>
      rw [joinNl_cons_cons]
      rcases List.mem_cons.mp hl with rfl | h
      · exact List.mem_append.mpr (Or.inl hc)
      · exact List.mem_append.mpr (Or.inr (List.mem_cons.mpr
          (Or.inr (ih h))))

theorem mem_of_mem_joinNl (ls : List Str) (c : Char) (h : c ∈ joinNl ls) :
    c = '\n' ∨ ∃ l ∈ ls, c ∈ l := by
  induction ls with
  | nil => simp [joinNl] at h
  | cons x xs ih =>
    cases xs with
    | nil =>
      simp only [joinNl, List.intersperse] at h
      exact Or.inr ⟨x, by simp, by simpa using h⟩
    | cons y ys =>
      rw [joinNl_cons_cons] at h
      rcases List.mem_append.mp h with h1 | h1
      · exact Or.inr ⟨x, by simp, h1⟩
      · rcases List.mem_cons.mp h1 with rfl | h2
        · exact Or.inl rfl
        · rcases ih h2 with h3 | ⟨l, hl, hcl⟩
          · exact Or.inl h3
          · exact Or.inr ⟨l, by simp [hl], hcl⟩

theorem addShellPrefix_keeps_nonblank (code : Str)
    (hne : pyStrip code ≠ []) : pyStrip (addShellPrefix code) ≠ [] := by
  have hex : ∃ c ∈ code, isPyWs c = false := by
    by_contra hall
    push_neg at hall
    exact hne (by
      unfold pyStrip
      have : code.dropWhile isPyWs = [] := by
        rw [List.dropWhile_eq_nil_iff]
        intro a ha
        have := hall a ha
        simpa using this
      rw [this]
      rfl)
  obtain ⟨c, hc, hcw⟩ := hex
  have hcode : c ∈ joinNl (splitNl code) := by
    rw [joinNl_splitNl]; exact hc
  rcases mem_of_mem_joinNl _ _ hcode with rfl | ⟨l, hl, hcl⟩
  · simp [isPyWs] at hcw
  · intro habs
    have hmem : c ∈ addShellPrefix code := by
      unfold addShellPrefix
      apply mem_joinNl_of_mem _
        (if (pyStrip l).isEmpty || ['#'].isPrefixOf (pyStrip l) then l
         else '!' :: l) c
      · exact List.mem_map_of_mem _ hl
      · by_cases hb : ((pyStrip l).isEmpty || ['#'].isPrefixOf (pyStrip l))
          = true
        · rw [if_pos hb]; exact hcl
        · rw [if_neg hb]; exact List.mem_cons.mpr (Or.inr hcl)
    have := pyStrip_eq_nil_mem _ habs c hmem
    rw [this] at hcw
    exact Bool.true_eq_false.mp hcw

theorem splitGo_code_nonblank (src baseId : Str) :
    ∀ (exl : List FMatch) (idx prevEnd : Nat) (c : Cell),
      c ∈ splitGo src baseId exl idx prevEnd →
      c.cellType = "code".toList → pyStrip (joinStr c.source) ≠ [] := by
  intro exl
  induction exl with
  | nil =>
    intro idx prevEnd c hc hct
    have hc' : c ∈ (if pyStrip (seg src prevEnd src.length) ≠ [] then
        [mkMdCell (seg src prevEnd src.length)
          (baseId ++ "-md".toList ++ natToStr idx)]
      else []) := hc
    by_cases hmd : pyStrip (seg src prevEnd src.length) ≠ []
    · rw [if_pos hmd] at hc'
      rcases List.mem_singleton.mp hc' with rfl
      exact absurd hct (by simp [mkMdCell])
    · rw [if_neg hmd] at hc'
      simp at hc'
  | cons m rest ih =>
    intro idx prevEnd c hc hct
    have hc' : c ∈ (if pyStrip (stripIndent m.body m.indent) = [] then
        (if pyStrip (seg src prevEnd m.start) ≠ [] then
          [mkMdCell (seg src prevEnd m.start)
            (baseId ++ "-md".toList ++ natToStr idx)] else []) ++
          splitGo src baseId rest (idx + 1) (m.start + m.len)
      else
        (if pyStrip (seg src prevEnd m.start) ≠ [] then
          [mkMdCell (seg src prevEnd m.start)
            (baseId ++ "-md".toList ++ natToStr idx)] else []) ++
          mkCodeCell (if isShellLang (lowerStr m.lang) then
              addShellPrefix (stripIndent m.body m.indent)
            else stripIndent m.body m.indent)
            (baseId ++ "-code".toList ++ natToStr idx) ::
            splitGo src baseId rest (idx + 1) (m.start + m.len)) := hc
    by_cases h2 : pyStrip (stripIndent m.body m.indent) = []
    · rw [if_pos h2] at hc'
      rcases List.mem_append.mp hc' with h1 | h1
      · by_cases h3 : pyStrip (seg src prevEnd m.start) ≠ []
        · rw [if_pos h3] at h1
          rcases List.mem_singleton.mp h1 with rfl
          exact absurd hct (by simp [mkMdCell])
        · rw [if_neg h3] at h1
          simp at h1
      · exact ih (idx + 1) (m.start + m.len) c h1 hct
    · rw [if_neg h2] at hc'
      rcases List.mem_append.mp hc' with h1 | h1
      · by_cases h3 : pyStrip (seg src prevEnd m.start) ≠ []
        · rw [if_pos h3] at h1
          rcases List.mem_singleton.mp h1 with rfl
          exact absurd hct (by simp [mkMdCell])
        · rw [if_neg h3] at h1
          simp at h1
      · rcases List.mem_cons.mp h1 with rfl | h3
        · rw [show joinStr (mkCodeCell (if isShellLang (lowerStr m.lang)
              then addShellPrefix (stripIndent m.body m.indent)
              else stripIndent m.body m.indent)
              (baseId ++ "-code".toList ++ natToStr idx)).source =
              (if isShellLang (lowerStr m.lang)
               then addShellPrefix (stripIndent m.body m.indent)
               else stripIndent m.body m.indent) from
            joinStr_splitKeepNl _]
          by_cases hsh : isShellLang (lowerStr m.lang) = true
          · rw [if_pos hsh]
            exact addShellPrefix_keeps_nonblank _ h2
          · rw [if_neg hsh]
            exact h2
        · exact ih (idx + 1) (m.start + m.len) c h3 hct

/-- C8: a split candidate whose extracted body is blank produces no code
cell — every code cell in a split carries a non-blank body — while the
non-blank markdown around a blank candidate is still emitted, as on the
concrete surrounded-blank-block cell. -/
theorem c8_empty_block_drop (cell : Cell)
    (hmd : cell.cellType = "markdown".toList) :
    (∀ c ∈ splitMarkdownCell cell, c.cellType = "code".toList →
      pyStrip (joinStr c.source) ≠ []) ∧
    (splitMarkdownCell exSurroundedBlankCell).map
      (fun c => (c.cellType, joinStr c.source)) =
      [("markdown".toList, "X\n".toList),
       ("markdown".toList, "Y\n".toList)] := by
  constructor
  · intro c hc hct
    have hc' : c ∈ (if extractions (joinStr cell.source) = [] then [cell]
        else splitGo (joinStr cell.source) cell.id
          (extractions (joinStr cell.source)) 0 0) := hc
    by_cases hex : extractions (joinStr cell.source) = []
    · rw [if_pos hex] at hc'
      rcases List.mem_singleton.mp hc' with rfl
      rw [hmd] at hct
      exact absurd hct (by decide)
    · rw [if_neg hex] at hc'
      exact splitGo_code_nonblank _ _ _ _ _ c hc' hct
  · decide

/-- Witness for `c8_empty_block_drop` at the surrounded-blank-block cell. -/
theorem c8_empty_block_drop_witness :
    exSurroundedBlankCell.cellType = "markdown".toList ∧
    (∀ c ∈ splitMarkdownCell exSurroundedBlankCell,
      c.cellType = "code".toList → pyStrip (joinStr c.source) ≠ []) :=
  ⟨by decide, (c8_empty_block_drop exSurroundedBlankCell (by decide)).1⟩

/-! ## Claim C4 — scanner step equations and invariants -/

theorem fencedGo_cons_succ (c : Char) (t : Str) (pos k : Nat) (ls : Bool) :
    fencedGo (c :: t) pos (k + 1) ls = fencedGo t (pos + 1) k (c = '\n') :=
  rfl

theorem fencedGo_cons_false (c : Char) (t : Str) (pos : Nat) :
    fencedGo (c :: t) pos 0 false = fencedGo t (pos + 1) 0 (c = '\n') :=
  rfl

theorem fencedGo_cons_none (c : Char) (t : Str) (pos : Nat)
    (h : fencedMatchAt (c :: t) = none) :
    fencedGo (c :: t) pos 0 true = fencedGo t (pos + 1) 0 (c = '\n') := by
  show (match fencedMatchAt (c :: t) with
    | some (ind, lang, body, len) =>
      FMatch.mk pos len ind lang body ::
        (match len with
         | 0 => fencedGo t (pos + 1) 0 (c = '\n')
         | k + 1 => fencedGo t (pos + 1) k (c = '\n'))
    | none => fencedGo t (pos + 1) 0 (c = '\n')) =
    fencedGo t (pos + 1) 0 (c = '\n')
  rw [h]

theorem fencedGo_cons_some (c : Char) (t : Str) (pos : Nat)
    (ind lang body : Str) (len : Nat)
    (h : fencedMatchAt (c :: t) = some (ind, lang, body, len)) :
    fencedGo (c :: t) pos 0 true =
      FMatch.mk pos len ind lang body ::
        fencedGo t (pos + 1) (len - 1) (c = '\n') := by
  show (match fencedMatchAt (c :: t) with
    | some (ind, lang, body, len) =>
      FMatch.mk pos len ind lang body ::
        (match len with
         | 0 => fencedGo t (pos + 1) 0 (c = '\n')
         | k + 1 => fencedGo t (pos + 1) k (c = '\n'))
    | none => fencedGo t (pos + 1) 0 (c = '\n')) =
    FMatch.mk pos len ind lang body ::
      fencedGo t (pos + 1) (len - 1) (c = '\n')
  rw [h]
  cases len with
  | zero => rfl
  | succ k => rfl

theorem fencedGo_start_ge (s : Str) :
    ∀ pos skip ls m, m ∈ fencedGo s pos skip ls → pos + skip ≤ m.start := by
  induction s with
  | nil => intro pos skip ls m hm; simp [fencedGo] at hm
  | cons c t ih =>
    intro pos skip ls m hm
    cases skip with
    | succ k =>
      rw [fencedGo_cons_succ] at hm
      have := ih (pos + 1) k (c = '\n') m hm
      omega
    | zero =>
      cases ls with
      | false =>
        rw [fencedGo_cons_false] at hm
        have := ih (pos + 1) 0 (c = '\n') m hm
        omega
      | true =>
        cases hma : fencedMatchAt (c :: t) with
        | none =>
          rw [fencedGo_cons_none c t pos hma] at hm
          have := ih (pos + 1) 0 (c = '\n') m hm
          omega
        | some r =>
          obtain ⟨ind, lang, body, len⟩ := r
          rw [fencedGo_cons_some c t pos ind lang body len hma] at hm
          rcases List.mem_cons.mp hm with rfl | hm'
          · simp
          · have := ih (pos + 1) (len - 1) (c = '\n') m hm'
            omega

theorem fencedGo_pairwise (s : Str) :
    ∀ pos skip ls, (fencedGo s pos skip ls).Pairwise
      (fun m1 m2 => m1.start + m1.len ≤ m2.start) := by
  induction s with
  | nil => intro pos skip ls; simp [fencedGo]
  | cons c t ih =>
    intro pos skip ls
    cases skip with
    | succ k => rw [fencedGo_cons_succ]; exact ih (pos + 1) k _
    | zero =>
      cases ls with
      | false => rw [fencedGo_cons_false]; exact ih (pos + 1) 0 _
      | true =>
        cases hma : fencedMatchAt (c :: t) with
        | none => rw [fencedGo_cons_none c t pos hma]; exact ih (pos + 1) 0 _
        | some r =>
          obtain ⟨ind, lang, body, len⟩ := r
          rw [fencedGo_cons_some c t pos ind lang body len hma]
          refine List.Pairwise.cons ?_ (ih (pos + 1) (len - 1) _)
          intro m hm
          have := fencedGo_start_ge t (pos + 1) (len - 1) (c = '\n') m hm
          show pos + len ≤ m.start
          omega

theorem fencedGo_matchAt (u : Str) :
    ∀ pos skip ls m, m ∈ fencedGo u pos skip ls →
      ∃ off, m.start = pos + off ∧
        fencedMatchAt (u.drop off) =
          some (m.indent, m.lang, m.body, m.len) := by
  induction u with
  | nil => intro pos skip ls m hm; simp [fencedGo] at hm
  | cons c t ih =>
    intro pos skip ls m hm
    have step : ∀ k ls', m ∈ fencedGo t (pos + 1) k ls' →
        ∃ off, m.start = pos + off ∧
          fencedMatchAt ((c :: t).drop off) =
            some (m.indent, m.lang, m.body, m.len) := by
      intro k ls' hm'
      obtain ⟨off', hoff, hmat⟩ := ih (pos + 1) k ls' m hm'
      exact ⟨off' + 1, by omega, by simpa using hmat⟩
    cases skip with
    | succ k =>
      rw [fencedGo_cons_succ] at hm
      exact step k _ hm
    | zero =>
      cases ls with
      | false =>
        rw [fencedGo_cons_false] at hm
        exact step 0 _ hm
      | true =>
        cases hma : fencedMatchAt (c :: t) with
        | none =>
          rw [fencedGo_cons_none c t pos hma] at hm
          exact step 0 _ hm
        | some r =>
          obtain ⟨ind, lang, body, len⟩ := r
          rw [fencedGo_cons_some c t pos ind lang body len hma] at hm
          rcases List.mem_cons.mp hm with rfl | hm'
          · exact ⟨0, by simp, by simpa using hma⟩
          · exact step (len - 1) _ hm'

/-! ## Claim C4 — parse-shape lemmas for a fenced match -/

theorem expectLit_some (lit u r : Str) (h : expectLit lit u = some r) :
    u = lit ++ r := by
  unfold expectLit at h
  by_cases hp : lit.isPrefixOf u = true
  · rw [if_pos hp] at h
    cases h
    obtain ⟨t, rfl⟩ := List.isPrefixOf_iff_prefix.mp hp
    congr 1
    exact (List.drop_left lit t).symm
  · rw [if_neg hp] at h
    cases h

theorem drop_length_takeWhile (p : Char → Bool) (l : Str) :
    l.drop (l.takeWhile p).length = l.dropWhile p := by
  induction l with
  | nil => rfl
  | cons c t ih =>
    by_cases hc : p c
    · rw [List.takeWhile_cons_of_pos hc, List.dropWhile_cons_of_pos hc]
      simpa using ih
    · rw [List.takeWhile_cons_of_neg hc, List.dropWhile_cons_of_neg hc]
      rfl

theorem take_append_plus {α : Type} (a x : List α) (n : Nat) :
    (a ++ x).take (a.length + n) = a ++ x.take n := by
  induction a with
  | nil => simp
  | cons c t ih => simp [Nat.succ_add, ih]

theorem takeWhile_decomp (p : Char → Bool) (l : Str) :
    l = l.takeWhile p ++ l.drop (l.takeWhile p).length := by
  rw [drop_length_takeWhile]
  exact (List.takeWhile_append_dropWhile p l).symm

theorem lastNlIdx_lt (w : Str) : ∀ j, lastNlIdx w = some j → j < w.length := by
  induction w with
  | nil => intro j h; cases h
  | cons c t ih =>
    intro j h
    unfold lastNlIdx at h
    cases ht : lastNlIdx t with
    | some j' =>
      rw [ht] at h
      cases h
      have := ih j' ht
      simp
      omega
    | none =>
      rw [ht] at h
      by_cases hc : c = '\n'
      · rw [if_pos hc] at h
        cases h
        simp
      · rw [if_neg hc] at h
        cases h

theorem closeFenceAt_spec (ind w : Str) (cl : Nat)
    (h : closeFenceAt ind w = some cl) :
    ∃ sp : Str, (∀ c ∈ sp, c = ' ') ∧
      w.take cl = ind ++ ('`' :: '`' :: '`' :: sp) ∧
      cl = ind.length + 3 + sp.length ∧ cl ≤ w.length := by
  unfold closeFenceAt at h
  cases h1 : expectLit ind w with
  | none => rw [h1] at h; cases h
  | some v1 =>
    rw [h1] at h
    dsimp only at h
    cases h2 : expectLit ['`', '`', '`'] v1 with
    | none => rw [h2] at h; cases h
    | some v2 =>
      rw [h2] at h
      dsimp only at h
      have hw : w = ind ++ v1 := expectLit_some _ _ _ h1
      have hv1 : v1 = '`' :: '`' :: '`' :: v2 := expectLit_some _ _ _ h2
      by_cases hend : v2.drop (v2.takeWhile (· = ' ')).length = [] ∨
          (v2.drop (v2.takeWhile (· = ' ')).length).head? = some '\n'
      · rw [if_pos hend] at h
        cases h
        refine ⟨v2.takeWhile (· = ' '), ?_, ?_, rfl, ?_⟩
        · intro c hc
          have := List.mem_takeWhile_imp hc
          simpa using this
        · rw [hw, hv1]
          have h3 : ind.length + 3 + (v2.takeWhile (· = ' ')).length =
              ind.length + (3 + (v2.takeWhile (· = ' ')).length) := by omega
          rw [h3, take_append_plus]
          congr 1
          have h4 : ('`' :: '`' :: '`' :: v2).take
              (3 + (v2.takeWhile (· = ' ')).length) =
              '`' :: '`' :: '`' ::
                v2.take (v2.takeWhile (· = ' ')).length := by
            rw [show 3 + (v2.takeWhile (· = ' ')).length =
              (((v2.takeWhile (· = ' ')).length + 1) + 1) + 1 from by omega]
            simp only [List.take_succ_cons]
          have h5 : v2.take (v2.takeWhile (· = ' ')).length =
              v2.takeWhile (· = ' ') := by
            have hstep : ((v2.takeWhile (· = ' ')) ++
                v2.drop (v2.takeWhile (· = ' ')).length).take
                ((v2.takeWhile (· = ' ')).length + 0) =
                v2.takeWhile (· = ' ') := by
              rw [take_append_plus]
              simp
            rw [← takeWhile_decomp (· = ' ') v2] at hstep
            exact hstep
          rw [h4, h5]
        · rw [hw, hv1]
          simp only [List.length_append, List.length_cons]
          have := (List.takeWhile_prefix (l := v2) (· = ' ')).length_le
          omega
      · rw [if_neg hend] at h
        cases h

theorem findCloseFence_cons_false (ind : Str) (c : Char) (t : Str) :
    findCloseFence ind false (c :: t) =
      (findCloseFence ind (c = '\n') t).map (fun r => (r.1 + 1, r.2)) :=
  rfl

theorem findCloseFence_cons_some (ind : Str) (c : Char) (t : Str) (cl : Nat)
    (h : closeFenceAt ind (c :: t) = some cl) :
    findCloseFence ind true (c :: t) = some (0, cl) := by
  show (match closeFenceAt ind (c :: t) with
    | some cl => some (0, cl)
    | none => (findCloseFence ind (c = '\n') t).map
        (fun r => (r.1 + 1, r.2))) = some (0, cl)
  rw [h]

theorem findCloseFence_cons_none (ind : Str) (c : Char) (t : Str)
    (h : closeFenceAt ind (c :: t) = none) :
    findCloseFence ind true (c :: t) =
      (findCloseFence ind (c = '\n') t).map (fun r => (r.1 + 1, r.2)) := by
  show (match closeFenceAt ind (c :: t) with
    | some cl => some (0, cl)
    | none => (findCloseFence ind (c = '\n') t).map
        (fun r => (r.1 + 1, r.2))) =
    (findCloseFence ind (c = '\n') t).map
      (fun (r : Nat × Nat) => (r.1 + 1, r.2))
  rw [h]

theorem findCloseFence_spec (ind : Str) :
    ∀ (v : Str) (ls : Bool) (bl cl : Nat),
      findCloseFence ind ls v = some (bl, cl) →
      closeFenceAt ind (v.drop bl) = some cl ∧ bl + cl ≤ v.length := by
  intro v
  induction v with
  | nil => intro ls bl cl h; cases h
  | cons c t ih =>
    intro ls bl cl h
    have hmap : ∀ (hm : (findCloseFence ind (c = '\n') t).map
        (fun r => (r.1 + 1, r.2)) = some (bl, cl)),
        closeFenceAt ind ((c :: t).drop bl) = some cl ∧
          bl + cl ≤ (c :: t).length := by
      intro hm
      rcases Option.map_eq_some'.mp hm with ⟨⟨q, cl2⟩, hrec, heq⟩
      have heq1 : q + 1 = bl := congrArg Prod.fst heq
      have heq2 : cl2 = cl := congrArg Prod.snd heq
      subst heq2
      obtain ⟨hclose, hbound⟩ := ih (c = '\n') q _ hrec
      constructor
      · rw [← heq1]
        simpa using hclose
      · simp only [List.length_cons]
        omega
    cases ls with
    | false =>
      rw [findCloseFence_cons_false] at h
      exact hmap h
    | true =>
      cases hca : closeFenceAt ind (c :: t) with
      | some cl' =>
        rw [findCloseFence_cons_some ind c t cl' hca] at h
        have hbl : bl = 0 ∧ cl' = cl := by
          constructor
          · exact (congrArg Prod.fst (Option.some.inj h)).symm
          · exact congrArg Prod.snd (Option.some.inj h)
        obtain ⟨rfl, rfl⟩ := hbl
        obtain ⟨sp, _, _, _, hle⟩ := closeFenceAt_spec ind (c :: t) _ hca
        exact ⟨by simpa using hca, by simpa using hle⟩
      | none =>
        rw [findCloseFence_cons_none ind c t hca] at h
        exact hmap h

/-- The text of a successful `FENCED_CODE_RE` match: it is nonempty, fits
inside the scanned suffix, starts and ends with a space or a backtick, and
contains a backtick. -/
theorem fencedMatchAt_shape (u ind lang body : Str) (len : Nat)
    (h : fencedMatchAt u = some (ind, lang, body, len)) :
    0 < len ∧ len ≤ u.length ∧ u.take len ≠ [] ∧
    (∀ c, (u.take len).head? = some c → (c = ' ' ∨ c = '`')) ∧
    (∀ c, (u.take len).getLast? = some c → (c = ' ' ∨ c = '`')) ∧
    '`' ∈ u.take len := by
  unfold fencedMatchAt at h
  dsimp only at h
  cases h1 : expectLit ['`', '`', '`']
      (u.drop (u.takeWhile (· = ' ')).length) with
  | none => rw [h1] at h; cases h
  | some u1 =>
    rw [h1] at h
    dsimp only at h
    cases h2 : lastNlIdx ((u1.drop (u1.takeWhile isWordChar).length).takeWhile
        isPyWs) with
    | none => rw [h2] at h; cases h
    | some j =>
      rw [h2] at h
      dsimp only at h
      cases h3 : findCloseFence (u.takeWhile (· = ' ')) true
          ((u1.drop (u1.takeWhile isWordChar).length).drop (j + 1)) with
      | none => rw [h3] at h; cases h
      | some r =>
        obtain ⟨bl, cl⟩ := r
        rw [h3] at h
        dsimp only at h
        simp only [Option.some.injEq, Prod.mk.injEq] at h
        obtain ⟨hind, hlang, hbody, hlen⟩ := h
        -- Abbreviations for the pieces of the match.
        set ind0 := u.takeWhile (· = ' ') with hind0
        set lang0 := u1.takeWhile isWordChar with hlang0
        set u2 := u1.drop lang0.length with hu2
        set u3 := u2.drop (j + 1) with hu3
        set Q := u3.drop bl with hQ
        -- Decompositions.
        have e1 : u = ind0 ++ u.drop ind0.length := takeWhile_decomp _ u
        have e2 : u.drop ind0.length = '`' :: '`' :: '`' :: u1 :=
          expectLit_some _ _ _ h1
        have e3 : u1 = lang0 ++ u2 := takeWhile_decomp isWordChar u1
        have e4 : u2 = u2.take (j + 1) ++ u3 :=
          (List.take_append_drop (j + 1) u2).symm
        have e5 : u3 = u3.take bl ++ Q :=
          (List.take_append_drop bl u3).symm
        obtain ⟨hclose, hbound⟩ := findCloseFence_spec ind0 u3 true bl cl h3
        obtain ⟨sp, hspsp, hQtake, hcl, hclle⟩ :=
          closeFenceAt_spec ind0 Q cl hclose
        -- Bounds needed to compute lengths of take-slices.
        have hj : j < ((u1.drop lang0.length).takeWhile isPyWs).length :=
          lastNlIdx_lt _ j h2
        have hjw : ((u1.drop lang0.length).takeWhile isPyWs).length ≤
            u2.length := by
          rw [hu2]
          exact (List.takeWhile_prefix (l := u1.drop lang0.length)
            isPyWs).length_le
        have hj1 : j + 1 ≤ u2.length := by omega
        have hbl : bl ≤ u3.length := by omega
        -- The match text decomposed as P ++ Q.take cl.
        set P : Str := ind0 ++ ('`' :: '`' :: '`' ::
          (lang0 ++ (u2.take (j + 1) ++ u3.take bl))) with hP
        have hu : u = P ++ Q := by
          conv_lhs => rw [e1, e2]
          conv_lhs => rw [e3]
          conv_lhs => rw [e4]
          conv_lhs => rw [e5]
          rw [hP]
          simp [List.append_assoc]
        have hPlen : P.length =
            ind0.length + 3 + lang0.length + (j + 1) + bl := by
          rw [hP]
          simp only [List.length_append, List.length_cons, List.length_take]
          have hm1 : min (j + 1) u2.length = j + 1 := Nat.min_eq_left hj1
          have hm2 : min bl u3.length = bl := Nat.min_eq_left hbl
          omega
        have htake : u.take len = P ++ Q.take cl := by
          rw [hu, ← hlen]
          rw [show ind0.length + 3 + lang0.length + (j + 1) + bl + cl =
            P.length + cl from by omega]
          exact take_append_plus P Q cl
        -- Assemble the six facts.
        have hQne : Q.take cl ≠ [] := by
          rw [hQtake]
          simp
        refine ⟨by omega, ?_, ?_, ?_, ?_, ?_⟩
        · rw [hu, ← hlen]
          simp only [List.length_append]
          omega
        · rw [htake]
          simp only [ne_eq, List.append_eq_nil]
          intro ⟨hp, hq⟩
          rw [hP] at hp
          simp at hp
        · intro c hc
          rw [htake] at hc
          rw [hP] at hc
          cases hi : ind0 with
          | nil =>
            rw [hi] at hc
            simp only [List.nil_append, List.cons_append,
              List.head?_cons, Option.some.injEq] at hc
            exact Or.inr hc.symm
          | cons a it =>
            rw [hi] at hc
            simp only [List.cons_append, List.head?_cons,
              Option.some.injEq] at hc
            have ha : a ∈ u.takeWhile (· = ' ') := by
              rw [← hind0, hi]
              simp
            have := List.mem_takeWhile_imp ha
            subst hc
            left
            simpa using this
        · intro c hc
          rw [htake, List.getLast?_append] at hc
          cases hq : (Q.take cl).getLast? with
          | none =>
            exact absurd (List.getLast?_eq_none_iff.mp hq) hQne
          | some z =>
            rw [hq] at hc
            simp only [Option.or_some, Option.some.injEq] at hc
            subst hc
            rw [hQtake, List.getLast?_append] at hq
            rcases List.eq_nil_or_concat sp with rfl | ⟨ys, y, rfl⟩
            · have : ('`' :: '`' :: '`' :: ([] : Str)).getLast? =
                  some '`' := rfl
              rw [this] at hq
              simp only [Option.or_some, Option.some.injEq] at hq
              exact Or.inr hq.symm
            · have hy : ('`' :: '`' :: '`' :: ys.concat y).getLast? =
                  some y := by
                rw [List.concat_eq_append,
                  show ('`' :: '`' :: '`' :: (ys ++ [y])) =
                    ('`' :: '`' :: '`' :: ys) ++ [y] from by simp]
                exact List.getLast?_concat _
              rw [hy] at hq
              simp only [Option.or_some, Option.some.injEq] at hq
              have := hspsp y (by simp)
              subst hq
              exact Or.inl this
        · rw [htake, hP]
          cases ind0 with
          | nil => simp
          | cons a it => simp

/-! ## Claim C4 — infix preservation through the emission loop -/

theorem take_prefix_take_of_le {α : Type} (l : List α) (m n : Nat)
    (h : m ≤ n) : l.take m <+: l.take n := by
  have heq : (l.take n).take m = l.take m := by
    rw [List.take_take]
    congr 1
    omega
  rw [← heq]
  exact List.take_prefix m (l.take n)

theorem take_drop_infix_take {α : Type} (x : List α) (d mlen n : Nat)
    (h : d + mlen ≤ n) : (x.drop d).take mlen <:+: x.take n := by
  have h1 : (x.take (d + mlen)).drop d = (x.drop d).take mlen := by
    rw [List.drop_take]
    congr 1
    omega
  rw [← h1]
  exact (List.drop_suffix d (x.take (d + mlen))).isInfix.trans
    (take_prefix_take_of_le x (d + mlen) n h).isInfix

/-- `source[mstart:mend]` sits literally inside `source[a:b]` whenever the
spans nest. -/
theorem seg_infix (s : Str) (mstart mend a b : Nat)
    (h1 : a ≤ mstart) (h2 : mend ≤ b) (h3 : mstart ≤ mend) :
    seg s mstart mend <:+: seg s a b := by
  unfold seg
  have hd : s.drop mstart = (s.drop a).drop (mstart - a) := by
    rw [List.drop_drop]
    congr 1
    omega
  rw [hd]
  apply take_drop_infix_take
  omega

theorem dropTrailWhile_getLast (p : Char → Bool) (l : Str) (c : Char)
    (h : (dropTrailWhile p l).getLast? = some c) : p c = false := by
  unfold dropTrailWhile at h
  rw [List.getLast?_reverse] at h
  cases hdw : l.reverse.dropWhile p with
  | nil => rw [hdw] at h; cases h
  | cons d u =>
    rw [hdw] at h
    simp only [List.head?_cons, Option.some.injEq] at h
    subst h
    exact dropWhile_eq_cons_neg p l.reverse _ u hdw

/-- The joined text of a markdown cell built by `_make_md_cell`: the input
with newlines stripped from both ends and a single trailing newline. -/
theorem mkMdCell_text (t cid : Str) :
    joinStr (mkMdCell t cid).source = stripNl t ++ ['\n'] := by
  show joinStr (splitKeepNl (if (stripNl t).getLast? = some '\n'
    then stripNl t else stripNl t ++ ['\n'])) = stripNl t ++ ['\n']
  rw [joinStr_splitKeepNl]
  by_cases h : (stripNl t).getLast? = some '\n'
  · exfalso
    have := dropTrailWhile_getLast (· = '\n') (t.dropWhile (· = '\n')) '\n' h
    simp at this
  · rw [if_neg h]

theorem infix_dropWhile (p : Char → Bool) (t x : Str)
    (hne : x ≠ [])
    (hh : ∀ c, x.head? = some c → p c = false)
    (hx : x <:+: t) : x <:+: t.dropWhile p := by
  obtain ⟨s1, s2, rfl⟩ := hx
  have hxself : x.dropWhile p = x := by
    cases x with
    | nil => rfl
    | cons c xs => exact List.dropWhile_cons_of_neg (by simp [hh c rfl])
  rw [List.dropWhile_append]
  by_cases hA : (List.dropWhile p (s1 ++ x)).isEmpty
  · exfalso
    rw [List.dropWhile_append] at hA
    by_cases hB : (List.dropWhile p s1).isEmpty
    · rw [if_pos hB, hxself] at hA
      rw [List.isEmpty_iff] at hA
      exact hne hA
    · rw [if_neg hB] at hA
      rw [List.isEmpty_iff] at hA
      rcases List.append_eq_nil.mp hA with ⟨hA1, hA2⟩
      rw [List.isEmpty_iff] at hB
      exact hB hA1
  · rw [if_neg hA, List.dropWhile_append]
    by_cases hB : (List.dropWhile p s1).isEmpty
    · rw [if_pos hB, hxself]
      exact ⟨[], s2, by simp⟩
    · rw [if_neg hB]
      exact ⟨List.dropWhile p s1, s2, rfl⟩

theorem infix_stripNl_append (t x : Str)
    (hne : x ≠ [])
    (hh : ∀ c, x.head? = some c → ¬ c = '\n')
    (hl : ∀ c, x.getLast? = some c → ¬ c = '\n')
    (hx : x <:+: t) : x <:+: stripNl t ++ ['\n'] := by
  have h1 : x <:+: t.dropWhile (· = '\n') :=
    infix_dropWhile _ t x hne
      (fun c hc => by simpa using hh c hc) hx
  have h2 : x <:+: stripNl t := by
    show x <:+: dropTrailWhile (· = '\n') (t.dropWhile (· = '\n'))
    unfold dropTrailWhile
    have h3 : x.reverse <:+:
        (t.dropWhile (· = '\n')).reverse.dropWhile (· = '\n') := by
      apply infix_dropWhile
      · simpa using hne
      · intro c hc
        rw [List.head?_reverse] at hc
        simpa using hl c hc
      · exact List.reverse_infix.mpr h1
    have h4 := List.reverse_infix.mpr h3
    simpa using h4
  exact h2.trans (List.prefix_append _ _).isInfix

theorem pyStrip_ne_nil_of_backtick (l : Str) (h : '`' ∈ l) :
    pyStrip l ≠ [] := by
  intro habs
  exact absurd (pyStrip_eq_nil_mem l habs '`' h) (by decide)

/-- Any span of the source that sits strictly between the candidates (and
whose text neither starts nor ends with a newline but contains a backtick)
survives the emission loop literally, inside one of the markdown cells. -/
theorem splitGo_keeps_text (src baseId : Str) (mstart mend : Nat)
    (hsme : mstart ≤ mend) (hmax : mend ≤ src.length)
    (hne : seg src mstart mend ≠ [])
    (hh : ∀ c, (seg src mstart mend).head? = some c → ¬ c = '\n')
    (hl : ∀ c, (seg src mstart mend).getLast? = some c → ¬ c = '\n')
    (hb : '`' ∈ seg src mstart mend) :
    ∀ (exl : List FMatch) (idx prevEnd : Nat),
      prevEnd ≤ mstart →
      (∀ e ∈ exl, mend ≤ e.start ∨ e.start + e.len ≤ mstart) →
      ∃ c ∈ splitGo src baseId exl idx prevEnd,
        c.cellType = "markdown".toList ∧
        seg src mstart mend <:+: joinStr c.source := by
  intro exl
  induction exl with
  | nil =>
    intro idx prevEnd hpe _
    have hinfix : seg src mstart mend <:+: seg src prevEnd src.length :=
      seg_infix src mstart mend prevEnd src.length hpe hmax hsme
    have hbt : '`' ∈ seg src prevEnd src.length := hinfix.subset hb
    have hstrip : pyStrip (seg src prevEnd src.length) ≠ [] :=
      pyStrip_ne_nil_of_backtick _ hbt
    refine ⟨mkMdCell (seg src prevEnd src.length)
      (baseId ++ "-md".toList ++ natToStr idx), ?_, rfl, ?_⟩
    · show mkMdCell _ _ ∈
        (if pyStrip (seg src prevEnd src.length) ≠ [] then
          [mkMdCell (seg src prevEnd src.length)
            (baseId ++ "-md".toList ++ natToStr idx)]
        else [])
      rw [if_pos hstrip]
      exact List.mem_singleton_self _
    · rw [mkMdCell_text]
      exact infix_stripNl_append _ _ hne hh hl hinfix
  | cons e rest ih =>
    intro idx prevEnd hpe hdisj
    rcases hdisj e (by simp) with hcase | hcase
    · have hinfix : seg src mstart mend <:+: seg src prevEnd e.start :=
        seg_infix src mstart mend prevEnd e.start hpe hcase hsme
      have hbt : '`' ∈ seg src prevEnd e.start := hinfix.subset hb
      have hstrip : pyStrip (seg src prevEnd e.start) ≠ [] :=
        pyStrip_ne_nil_of_backtick _ hbt
      refine ⟨mkMdCell (seg src prevEnd e.start)
        (baseId ++ "-md".toList ++ natToStr idx), ?_, rfl, ?_⟩
      · show mkMdCell _ _ ∈
          (if pyStrip (stripIndent e.body e.indent) = [] then
            (if pyStrip (seg src prevEnd e.start) ≠ [] then
              [mkMdCell (seg src prevEnd e.start)
                (baseId ++ "-md".toList ++ natToStr idx)] else []) ++
              splitGo src baseId rest (idx + 1) (e.start + e.len)
          else
            (if pyStrip (seg src prevEnd e.start) ≠ [] then
              [mkMdCell (seg src prevEnd e.start)
                (baseId ++ "-md".toList ++ natToStr idx)] else []) ++
              mkCodeCell (if isShellLang (lowerStr e.lang) then
                  addShellPrefix (stripIndent e.body e.indent)
                else stripIndent e.body e.indent)
                (baseId ++ "-code".toList ++ natToStr idx) ::
                splitGo src baseId rest (idx + 1) (e.start + e.len))
        by_cases h2 : pyStrip (stripIndent e.body e.indent) = []
        · rw [if_pos h2]
          exact List.mem_append_left _
            (by rw [if_pos hstrip]; exact List.mem_singleton_self _)
        · rw [if_neg h2]
          exact List.mem_append_left _
            (by rw [if_pos hstrip]; exact List.mem_singleton_self _)
      · rw [mkMdCell_text]
        exact infix_stripNl_append _ _ hne hh hl hinfix
    · obtain ⟨c, hcmem, hct, hinf⟩ := ih (idx + 1) (e.start + e.len) hcase
        (fun e' he' => hdisj e' (by simp [he']))
      refine ⟨c, ?_, hct, hinf⟩
      show c ∈
        (if pyStrip (stripIndent e.body e.indent) = [] then
          (if pyStrip (seg src prevEnd e.start) ≠ [] then
            [mkMdCell (seg src prevEnd e.start)
              (baseId ++ "-md".toList ++ natToStr idx)] else []) ++
            splitGo src baseId rest (idx + 1) (e.start + e.len)
        else
          (if pyStrip (seg src prevEnd e.start) ≠ [] then
            [mkMdCell (seg src prevEnd e.start)
              (baseId ++ "-md".toList ++ natToStr idx)] else []) ++
            mkCodeCell (if isShellLang (lowerStr e.lang) then
                addShellPrefix (stripIndent e.body e.indent)
              else stripIndent e.body e.indent)
              (baseId ++ "-code".toList ++ natToStr idx) ::
              splitGo src baseId rest (idx + 1) (e.start + e.len))
      by_cases h2 : pyStrip (stripIndent e.body e.indent) = []
      · rw [if_pos h2]
        exact List.mem_append_right _ hcmem
      · rw [if_neg h2]
        exact List.mem_append_right _ (List.mem_cons_of_mem _ hcmem)

/-- C4: a fenced block whose language is not extractable or whose start
lies in a no-split region is never emitted as a code cell and never
stripped — its matched text remains literally inside one of the markdown
cells of the split output. -/
theorem c4_unextractable_block_kept (cell : Cell) (m : FMatch)
    (hmd : cell.cellType = "markdown".toList)
    (hm : m ∈ fencedFinditer (joinStr cell.source))
    (hnc : (isExtractableLang (lowerStr m.lang) &&
      !inNoExtractZone m.start
        (findNoExtractZones (joinStr cell.source))) = false) :
    ∃ c ∈ splitMarkdownCell cell, c.cellType = "markdown".toList ∧
      matchText (joinStr cell.source) m <:+: joinStr c.source := by
  set src := joinStr cell.source with hsrc
  obtain ⟨off, hoff, hmat⟩ := fencedGo_matchAt src 0 0 true m hm
  have hoffeq : off = m.start := by omega
  subst hoffeq
  obtain ⟨hpos, hlelen, hne', hh', hl', hbt'⟩ :=
    fencedMatchAt_shape (src.drop m.start) m.indent m.lang m.body m.len hmat
  have hmt : matchText src m = (src.drop m.start).take m.len := by
    unfold matchText seg
    congr 1
    omega
  have hlen2 : m.start + m.len ≤ src.length := by
    have hld := List.length_drop m.start src
    omega
  have hseg : seg src m.start (m.start + m.len) =
      (src.drop m.start).take m.len := hmt
  by_cases hex : extractions src = []
  · refine ⟨cell, ?_, hmd, ?_⟩
    · show cell ∈ (if extractions src = [] then [cell]
        else splitGo src cell.id (extractions src) 0 0)
      rw [if_pos hex]
      exact List.mem_singleton_self _
    · have hfull : seg src 0 src.length = src := by
        unfold seg
        simp
      have := seg_infix src m.start (m.start + m.len) 0 src.length
        (Nat.zero_le _) hlen2 (by omega)
      rw [hfull] at this
      rw [show matchText src m = seg src m.start (m.start + m.len) from rfl]
      exact this
  · have hdisj : ∀ e ∈ extractions src,
        m.start + m.len ≤ e.start ∨ e.start + e.len ≤ m.start := by
      intro e he
      have heF : e ∈ fencedFinditer src := List.mem_of_mem_filter he
      have heP := List.of_mem_filter he
      have hmne : m ≠ e := by
        intro hEq
        rw [← hEq] at heP
        rw [hnc] at heP
        cases heP
      have hpw := fencedGo_pairwise src 0 0 true
      have hsym : (fencedFinditer src).Pairwise
          (fun a b => a.start + a.len ≤ b.start ∨
            b.start + b.len ≤ a.start) :=
        hpw.imp (fun h => Or.inl h)
      have hS : Symmetric (fun (a b : FMatch) =>
          a.start + a.len ≤ b.start ∨ b.start + b.len ≤ a.start) :=
        fun a b hab => hab.symm
      exact List.Pairwise.forall hS hsym hm heF hmne
    have hkeep := splitGo_keeps_text src cell.id m.start (m.start + m.len)
      (by omega) hlen2
      (by rw [hseg]; exact hne')
      (by
        intro c hc
        rw [hseg] at hc
        rcases hh' c hc with rfl | rfl <;> decide)
      (by
        intro c hc
        rw [hseg] at hc
        rcases hl' c hc with rfl | rfl <;> decide)
      (by rw [hseg]; exact hbt')
    obtain ⟨c, hcmem, hct, hinf⟩ := hkeep (extractions src) 0 0
      (Nat.zero_le _) hdisj
    refine ⟨c, ?_, hct, ?_⟩
    · show c ∈ (if extractions src = [] then [cell]
        else splitGo src cell.id (extractions src) 0 0)
      rw [if_neg hex]
      exact hcmem
    · rw [show matchText src m = seg src m.start (m.start + m.len) from rfl]
      exact hinf

/-- Witness for `c4_unextractable_block_kept`: the `foo`-tagged fenced
block of the concrete cell, sandwiched between two extracted python
blocks, survives inside a markdown cell. -/
theorem c4_unextractable_block_kept_witness :
    (exFooCell.cellType = "markdown".toList ∧
      (⟨21, 14, [], "foo".toList, "bar\n".toList⟩ : FMatch) ∈
        fencedFinditer (joinStr exFooCell.source) ∧
      (isExtractableLang (lowerStr "foo".toList) &&
        !inNoExtractZone 21
          (findNoExtractZones (joinStr exFooCell.source))) = false) ∧
    ∃ c ∈ splitMarkdownCell exFooCell,
      c.cellType = "markdown".toList ∧
      matchText (joinStr exFooCell.source)
        ⟨21, 14, [], "foo".toList, "bar\n".toList⟩ <:+: joinStr c.source :=
  ⟨⟨by decide, by decide, by decide⟩,
   c4_unextractable_block_kept exFooCell
     ⟨21, 14, [], "foo".toList, "bar\n".toList⟩
     (by decide) (by decide) (by decide)⟩

end FixNb
